import Mathlib

/-!
Verification of the go-upload resumable-upload session engine (`main.go`).

The embedding models the Unix (Linux) build of the program, the platform the
repository's Docker deployment targets: `filepath.Separator` is `'/'` and
`filepath.VolumeName` is constantly empty.  Go strings are modelled as Lean
`String`s and the `path/filepath` lexical algorithms are reimplemented on
`List Char` / component lists, following the documented semantics of
`filepath.Clean`, `filepath.Join`, `filepath.Abs`, `filepath.Rel` and
`filepath.Base`.  Go `int64` values are modelled as `Int`; theorems that
depend on ranges state explicit bounds, and claims never exercise overflow.
File-system side effects always succeed in the pure model (the real handlers
answer 500 on unexpected I/O failure); session metadata on disk, the `.part`
temp file and the in-memory `lastSaved` entry are explicit state.
-/

deriving instance DecidableEq for Except

/-! ## Go string primitives -/

/-- Go `unicode.IsSpace` restricted to the code points `strings.TrimSpace`
strips in the inputs of interest (Latin-1 range). -/
def goIsSpace (c : Char) : Bool :=
  c = ' ' ∨ c = '\t' ∨ c = '\n' ∨ c = '\x0b' ∨ c = '\x0c' ∨ c = '\r' ∨ c = '\x85' ∨ c = '\xa0'

/-- Go `strings.TrimSpace`. -/
def goTrimSpace (s : String) : String :=
  String.mk (((s.data.dropWhile goIsSpace).reverse.dropWhile goIsSpace).reverse)

/-- Go `strings.ReplaceAll(p, "\\", "/")` (single-character pattern). -/
def goReplaceSlashes (s : String) : String :=
  String.mk (s.data.map (fun c => if c = '\\' then '/' else c))

/-- Go `strings.HasPrefix`. -/
def goStartsWith (s pre : String) : Bool :=
  pre.data.isPrefixOf s.data

/-- Go `strings.TrimPrefix`. -/
def goTrimLead (s pre : String) : String :=
  if pre.data.isPrefixOf s.data then String.mk (s.data.drop pre.data.length) else s

/-! ## filepath: splitting a path into separator-delimited segments -/

/-- Helper for `splitSlash`: `acc` holds the current segment reversed. -/
def splitSlashAux : List Char → List Char → List String
  | acc, [] => [String.mk acc.reverse]
  | acc, c :: rest =>
    if c = '/' then String.mk acc.reverse :: splitSlashAux [] rest
    else splitSlashAux (c :: acc) rest

/-- Split on `'/'`, like Go `strings.Split(s, "/")` (segments may be empty). -/
def splitSlash (l : List Char) : List String :=
  splitSlashAux [] l

/-- Rebuild a path from segments with `'/'` between them (inverse of
`splitSlash` on well-formed segments). -/
def joinSlash : List String → List Char
  | [] => []
  | [c] => c.data
  | c :: rest => c.data ++ '/' :: joinSlash rest

/-! ## filepath.Clean (Unix) -/

/-- One step of the `filepath.Clean` element loop: skip empty and `"."`
segments, let `".."` backtrack over the previous element where possible
(dropped at the root of a rooted path, kept in front of a relative path),
push everything else.  `acc` is the output stack, most recent first. -/
def cleanStep (rooted : Bool) (acc : List String) (c : String) : List String :=
  if c = "" ∨ c = "." then acc
  else if c = ".." then
    if rooted then acc.tail
    else
      match acc with
      | [] => [".."]
      | top :: rest => if top = ".." then ".." :: top :: rest else rest
  else c :: acc

/-- The cleaned segment list of a path, in order. -/
def cleanComps (rooted : Bool) (cs : List String) : List String :=
  (cs.foldl (cleanStep rooted) []).reverse

/-- Go `filepath.Clean` on Unix: shortest lexically equivalent path. -/
def goClean (p : String) : String :=
  if p = "" then "."
  else
    let rooted := p.data.head? = some '/'
    let out := cleanComps rooted (splitSlash p.data)
    if rooted then String.mk ('/' :: joinSlash out)
    else if out = [] then "." else String.mk (joinSlash out)

/-- Go `filepath.VolumeName` on Unix builds: always the empty string. -/
def goVolumeName (_p : String) : String := ""

/-- Go `filepath.IsAbs` on Unix. -/
def goIsAbs (p : String) : Bool := goStartsWith p "/"

/-- Go `filepath.Join` of two elements: non-empty elements joined with the
separator, then cleaned; all-empty input gives the empty string. -/
def goJoin (a b : String) : String :=
  if a = "" ∧ b = "" then ""
  else if a = "" then goClean b
  else if b = "" then goClean a
  else goClean (a ++ "/" ++ b)

/-- Go `filepath.Abs`: already-absolute paths are cleaned, relative paths are
joined onto the process working directory `cwd`. -/
def goAbs (cwd p : String) : String :=
  if goIsAbs p then goClean p else goJoin cwd p

/-- Go `filepath.Base` on Unix. -/
def goBase (p : String) : String :=
  if p = "" then "."
  else
    let l := p.data.reverse.dropWhile (· = '/')
    if l = [] then "/"
    else String.mk ((l.takeWhile (· ≠ '/')).reverse)

/-- Drop the longest common leading run of equal segments from two segment
lists (the first-differing-element scan of Go `filepath.Rel`). -/
def dropCommon : List String → List String → List String × List String
  | b :: bs, t :: ts => if b = t then dropCommon bs ts else (b :: bs, t :: ts)
  | bs, ts => (bs, ts)

/-- Go `filepath.Rel(basepath, targpath)` on Unix, `none` for its error
results: cleans both, requires agreeing rootedness, strips the common
segment prefix, refuses a leading `".."` remainder in the base, and builds
`".."` steps for the remaining base segments. -/
def goRel (basepath targpath : String) : Option String :=
  let base := goClean basepath
  let targ := goClean targpath
  if targ = base then some "."
  else
    let base' := if base = "." then "" else base
    let baseSlashed := base'.data.head? = some '/'
    let targSlashed := targ.data.head? = some '/'
    if baseSlashed ≠ targSlashed then none
    else
      let bcs := if base' = "" then [] else splitSlash base'.data
      let tcs := splitSlash targ.data
      let (brest, trest) := dropCommon bcs tcs
      if brest.head? = some ".." then none
      else if brest = [] then some (String.mk (joinSlash trest))
      else some (String.mk (joinSlash (List.replicate brest.length ".." ++ trest)))

/-! ## main.go path helpers -/

/-- `sanitizeRelPath` (main.go): normalize separators, trim, strip one
leading `/` and one leading `./`, reject empty input, clean, reject `"."`,
`".."`, a leading `"../"` segment and (on Windows builds) a volume name. -/
def sanitizeRelPath (p : String) : Except String String :=
  let p := goReplaceSlashes p
  let p := goTrimSpace p
  let p := goTrimLead p "/"
  let p := goTrimLead p "./"
  if p = "" then .error "empty path"
  else
    let clean := goClean p
    if clean = "." ∨ clean = ".." ∨ goStartsWith clean "../" then .error "invalid path"
    else if goVolumeName clean ≠ "" then .error "invalid path"
    else .ok clean

/-- `isSubpath` (main.go): `childAbs` lies inside `rootAbs` when the lexical
relative path from the root is neither `".."` nor starts with `"../"`. -/
def isSubpath (childAbs rootAbs : String) : Bool :=
  match goRel (goClean rootAbs) (goClean childAbs) with
  | none => false
  | some rel => rel ≠ ".." && ¬ goStartsWith rel "../"

/-- `(*Server).finalAbsPath` (main.go): re-sanitize the stored relative path,
join it under the storage root, make it absolute, and re-verify the result
is still inside the root. -/
def finalAbsPath (cwd rootAbs rel : String) : Except String String :=
  match sanitizeRelPath rel with
  | .error e => .error e
  | .ok rel2 =>
    let abs := goJoin rootAbs rel2
    let abs := goAbs cwd abs
    if isSubpath abs rootAbs then .ok abs else .error "path escapes root"

/-- `maxInt64` (main.go). -/
def maxInt64 (a b : Int) : Int := if a > b then a else b

/-! ## Upload session engine (main.go handlers)

Each upload session is keyed by its id; operations on distinct ids touch
disjoint state and are serialized per id by the session mutex, so the
engine is modelled per session id.  `SessState` is the durable and
registry state of one id: the metadata JSON file, the `.part` temp file
(as the log of `(offset, length)` ranges written into it), and the
in-memory `lastSaved` entry of the metadata-flush throttle. -/

/-- `Config` limits (main.go), after `loadConfig` defaulting. -/
structure GoCfg where
  maxChunkBytes : Int
  maxFileBytes : Int
  deriving DecidableEq, Repr

/-- `UploadMeta` (main.go); `created_at` as an abstract timestamp. -/
structure UploadMeta where
  uploadID : String
  createdAt : Int
  filename : String
  relPath : String
  totalSize : Int
  chunkSize : Int
  uploadedSize : Int
  completed : Bool
  deriving DecidableEq, Repr

/-- Per-session-id durable and registry state. -/
structure SessState where
  meta : Option UploadMeta
  part : Option (List (Int × Int))
  lastSaved : Option Int
  deriving DecidableEq, Repr

/-- The state of a session id that was never created (or was cancelled). -/
def emptySess : SessState := ⟨none, none, none⟩

/-- HTTP-visible failure kinds of the handlers. -/
inductive ApiErr where
  | badRequest (msg : String)
  | notFound
  | conflict
  | tooLarge
  | internalErr
  deriving DecidableEq, Repr

/-- `metaSaveInterval` (newServer, main.go): flush threshold for session
metadata, half the maximum chunk size floored at 64 MiB. -/
def metaSaveInterval (cfg : GoCfg) : Int :=
  maxInt64 (64 * 1024 * 1024) (cfg.maxChunkBytes / 2)

/-- `initReq` (main.go). -/
structure InitReq where
  filename : String
  path : String
  totalSize : Int
  chunkSize : Int
  deriving DecidableEq, Repr

/-- `handleInit` (main.go): trim the two name fields, substitute an empty
path by the filename and an empty filename by the path's base name,
validate the sizes, sanitize the path, then persist fresh metadata and
preallocate the `.part` file.  Returns the stored metadata together with
the new session id's state. -/
def handleInit (cfg : GoCfg) (uploadID : String) (now : Int) (req : InitReq) :
    Except ApiErr (UploadMeta × SessState) :=
  let filename := goTrimSpace req.filename
  let path := goTrimSpace req.path
  let path := if path = "" then filename else path
  let filename := if filename = "" then goBase path else filename
  if req.totalSize ≤ 0 then .error (.badRequest "total_size must be > 0")
  else if 0 < cfg.maxFileBytes ∧ req.totalSize > cfg.maxFileBytes then .error .tooLarge
  else if req.chunkSize ≤ 0 ∨ req.chunkSize > cfg.maxChunkBytes then
    .error (.badRequest "invalid chunk_size")
  else
    match sanitizeRelPath path with
    | .error _ => .error (.badRequest "invalid path")
    | .ok rel =>
      let meta : UploadMeta :=
        { uploadID := uploadID, createdAt := now, filename := filename, relPath := rel
          totalSize := req.totalSize, chunkSize := req.chunkSize
          uploadedSize := 0, completed := false }
      .ok (meta, { meta := some meta, part := some [], lastSaved := none })

/-- `handleStatus` (main.go): load and return the metadata verbatim. -/
def handleStatus (st : SessState) : Except ApiErr UploadMeta :=
  match st.meta with
  | none => .error .notFound
  | some meta => .ok meta

/-- `handleChunk` (main.go): validate offset and length, load the metadata,
reject completed sessions and out-of-range writes, write the chunk into
the `.part` file, raise the in-memory uploaded size to
`max(uploadedSize, offset+length)`, and flush the metadata only when the
session is now full or the size advanced at least `metaSaveInterval`
since the last flush (`lastSaved`, created at `0` on first use).  The
result value is the (possibly unflushed) new uploaded size. -/
def handleChunk (cfg : GoCfg) (st : SessState) (offset chunkLen : Int) :
    Except ApiErr Int × SessState :=
  if offset < 0 then (.error (.badRequest "invalid offset"), st)
  else if chunkLen ≤ 0 then (.error (.badRequest "missing/invalid Content-Length"), st)
  else if chunkLen > cfg.maxChunkBytes then (.error .tooLarge, st)
  else
    match st.meta with
    | none => (.error .notFound, st)
    | some meta =>
      if meta.completed then (.error .conflict, st)
      else if offset + chunkLen > meta.totalSize then
        (.error (.badRequest "chunk out of range"), st)
      else
        match st.part with
        | none => (.error .internalErr, st)
        | some writes =>
          let part' := some (writes ++ [(offset, chunkLen)])
          let newUploaded :=
            if offset + chunkLen > meta.uploadedSize then offset + chunkLen
            else meta.uploadedSize
          let meta' := { meta with uploadedSize := newUploaded }
          let lastSaved := st.lastSaved.getD 0
          let needPersist :=
            meta'.uploadedSize = meta'.totalSize ∨
              meta'.uploadedSize - lastSaved ≥ metaSaveInterval cfg
          if needPersist then
            (.ok meta'.uploadedSize,
              { meta := some meta', part := part', lastSaved := some meta'.uploadedSize })
          else
            (.ok meta'.uploadedSize,
              { meta := some meta, part := part', lastSaved := some lastSaved })

/-- `handleComplete` (main.go): a completed session answers its final path
idempotently (errors of the path resolution ignored, yielding `""`); an
incomplete one is a conflict; otherwise resolve the final path, rename the
`.part` file onto it and persist `completed = true`. -/
def handleComplete (cfg : GoCfg) (cwd rootAbs : String) (st : SessState) :
    Except ApiErr String × SessState :=
  match st.meta with
  | none => (.error .notFound, st)
  | some meta =>
    if meta.completed then
      ((.ok ((finalAbsPath cwd rootAbs meta.relPath).toOption.getD "")), st)
    else if meta.uploadedSize < meta.totalSize then (.error .conflict, st)
    else
      match finalAbsPath cwd rootAbs meta.relPath with
      | .error _ => (.error (.badRequest "invalid path"), st)
      | .ok finalAbs =>
        match st.part with
        | none => (.error .internalErr, st)
        | some _ =>
          let meta' := { meta with completed := true }
          (.ok finalAbs, { meta := some meta', part := none, lastSaved := st.lastSaved })

/-- `handleCancel` (main.go): reject unknown and completed sessions, then
remove the `.part` file, the metadata file, the `lastSaved` entry and the
session mutex. -/
def handleCancel (st : SessState) : Except ApiErr Unit × SessState :=
  match st.meta with
  | none => (.error .notFound, st)
  | some meta =>
    if meta.completed then (.error .conflict, st)
    else (.ok (), emptySess)

/-! ## Directory tree scanner (handleStorageTree, main.go)

The file system visible to the scanner is a partial map from an absolute
directory path to its entry list (name and is-directory flag); `none`
models a directory `os.Open`/`ReadDir` fails on.  The walk recursion is
bounded by `maxDepth`; the embedding carries the remaining depth
`maxDepth - depth` as structural fuel. -/

/-- A node of the returned directory tree. -/
inductive DirNode where
  | mk (name relPath : String) (children : List DirNode)
  deriving Repr

/-- Name of a tree node. -/
def DirNode.nodeName : DirNode → String
  | .mk name _ _ => name

/-- Root-relative path of a tree node. -/
def DirNode.relOf : DirNode → String
  | .mk _ relPath _ => relPath

/-- Children of a tree node. -/
def DirNode.childrenOf : DirNode → List DirNode
  | .mk _ _ children => children

/-- The `name` computation of `build` (handleStorageTree): `Base(absDir)`,
replaced by `Base(rootAbs)` at the root. -/
def nodeNameOf (rootAbs absDir relDir : String) : String :=
  if relDir = "" then goBase rootAbs else goBase absDir

/-- The child loop of `build` (handleStorageTree): stop once `maxEntries`
is reached, visit only directories, skip the state directory at every
level (the source checks it twice, once specifically at the root), count
the entry, re-verify the resolved child path is still inside the root
(silently skipping escapees), and drop children whose recursive build
errored.  `rec` is the recursive build at the next depth. -/
def scanKids (stateDir rootAbs cwd : String) (maxEntries : Int)
    (rec : String → String → Int → DirNode × Int × Bool) :
    String → String → List (String × Bool) → Int → List DirNode →
    List DirNode × Int
  | _, _, [], entries, acc => (acc, entries)
  | absDir, relDir, de :: kids, entries, acc =>
    if entries ≥ maxEntries then (acc, entries)
    else if ¬ de.2 then scanKids stateDir rootAbs cwd maxEntries rec absDir relDir kids entries acc
    else if relDir = "" ∧ de.1 = stateDir then
      scanKids stateDir rootAbs cwd maxEntries rec absDir relDir kids entries acc
    else if de.1 = stateDir then
      scanKids stateDir rootAbs cwd maxEntries rec absDir relDir kids entries acc
    else
      let entries2 := entries + 1
      let childAbs := goJoin absDir de.1
      let childRel := if relDir = "" then de.1 else goJoin relDir de.1
      let childAbs2 := goAbs cwd childAbs
      if ¬ isSubpath childAbs2 rootAbs then
        scanKids stateDir rootAbs cwd maxEntries rec absDir relDir kids entries2 acc
      else
        match rec childAbs2 childRel entries2 with
        | (_, entries3, true) =>
          scanKids stateDir rootAbs cwd maxEntries rec absDir relDir kids entries3 acc
        | (childNode, entries3, false) =>
          scanKids stateDir rootAbs cwd maxEntries rec absDir relDir kids entries3
            (acc ++ [childNode])

/-- `build` (handleStorageTree): returns the node, the updated entry
counter, and whether opening/reading this directory failed (a failed child
is skipped by the parent; a failure at the root fails the scan).  `fuel`
is the remaining depth `maxDepth - depth`; `fuel = 0` is the
`depth >= maxDepth` stop, reached before the directory is opened. -/
def buildNode (fs : String → Option (List (String × Bool)))
    (stateDir rootAbs cwd : String) (maxEntries : Int) :
    Nat → String → String → Int → DirNode × Int × Bool
  | 0, absDir, relDir, entries =>
    (.mk (nodeNameOf rootAbs absDir relDir) relDir [], entries, false)
  | fuel + 1, absDir, relDir, entries =>
    match fs absDir with
    | none => (.mk (nodeNameOf rootAbs absDir relDir) relDir [], entries, true)
    | some kids =>
      let r := scanKids stateDir rootAbs cwd maxEntries
        (fun a b c => buildNode fs stateDir rootAbs cwd maxEntries fuel a b c)
        absDir relDir kids entries []
      (.mk (nodeNameOf rootAbs absDir relDir) relDir r.1, r.2, false)

/-- Go `strconv.ParseInt(s, 10, 64)`, `none` for its error results:
optional sign, decimal digits only, value within `int64`. -/
def parseGoInt64 (s : String) : Option Int :=
  let l := s.data
  let sd : Bool × List Char :=
    match l with
    | '+' :: rest => (false, rest)
    | '-' :: rest => (true, rest)
    | _ => (false, l)
  if sd.2 = [] ∨ ¬ sd.2.all (fun c => c.isDigit) then none
  else
    let n : Int := sd.2.foldl (fun acc c => acc * 10 + ((c.toNat : Int) - ('0'.toNat : Int))) 0
    let v := if sd.1 then -n else n
    if v < -(2 ^ 63) ∨ v > 2 ^ 63 - 1 then none else some v

/-- The `max_depth` resolution of handleStorageTree: default `4`, replaced
by the query value only when it parses and lies in `[0, 20]`. -/
def resolveMaxDepth (q : String) : Int :=
  let v := goTrimSpace q
  if v ≠ "" then
    match parseGoInt64 v with
    | some n => if n ≥ 0 ∧ n ≤ 20 then n else 4
    | none => 4
  else 4

/-- The `max_entries` resolution of handleStorageTree: default `5000`,
replaced by the query value only when it parses and lies in
`[1, 200000]`. -/
def resolveMaxEntries (q : String) : Int :=
  let v := goTrimSpace q
  if v ≠ "" then
    match parseGoInt64 v with
    | some n => if n ≥ 1 ∧ n ≤ 200000 then n else 5000
    | none => 5000
  else 5000

/-- `handleStorageTree` (main.go): resolve limits, build the tree from the
storage root; only a failure to read the root itself fails the scan. -/
def handleStorageTree (fs : String → Option (List (String × Bool)))
    (stateDir rootAbs cwd : String) (qDepth qEntries : String) :
    Except ApiErr DirNode :=
  let maxDepth := resolveMaxDepth qDepth
  let maxEntries := resolveMaxEntries qEntries
  match buildNode fs stateDir rootAbs cwd maxEntries maxDepth.toNat rootAbs "" 0 with
  | (_, _, true) => .error .internalErr
  | (node, _, false) => .ok node

/-! ## Auxiliary notions for the path proofs -/

/-- A well-formed path segment: non-empty, not a dot segment, and free of
the separator.  Directory-entry names returned by `ReadDir` and the
segments of a configured storage root have this shape. -/
def goodComp (c : String) : Prop :=
  c ≠ "" ∧ c ≠ "." ∧ c ≠ ".." ∧ '/' ∉ c.data

instance (c : String) : Decidable (goodComp c) := by
  unfold goodComp; infer_instance

/-- The absolute path with the given segments under the filesystem root. -/
def mkAbs (cs : List String) : String := String.mk ('/' :: joinSlash cs)

/-- The segments `filepath.Clean` keeps verbatim. -/
def keepComp (c : String) : Bool := ¬ (c = "" ∨ c = ".")

/-- The normalization prefix of `sanitizeRelPath`: separator replacement,
trimming, and stripping of one leading `/` and one leading `./`. -/
def sanitizeNormalize (p : String) : String :=
  goTrimLead (goTrimLead (goTrimSpace (goReplaceSlashes p)) "/") "./"

/-- The path-field substitution at the top of `handleInit`: an empty trimmed
path is replaced by the trimmed filename. -/
def substPath (filename path : String) : String :=
  if goTrimSpace path = "" then goTrimSpace filename else goTrimSpace path

/-- The filename-field substitution of `handleInit`: an empty trimmed
filename is replaced by the base name of the (already substituted) path. -/
def substFilename (filename path : String) : String :=
  if goTrimSpace filename = "" then goBase (substPath filename path)
  else goTrimSpace filename

set_option maxHeartbeats 1000000 in
/-- Session-id states reachable through the engine's operations, starting
from a successful `handleInit` of that id. -/
inductive Reach (cfg : GoCfg) (cwd rootAbs : String) : SessState → Prop where
  | init (uploadID : String) (now : Int) (req : InitReq) (meta : UploadMeta)
      (st : SessState) (h : handleInit cfg uploadID now req = .ok (meta, st)) :
      Reach cfg cwd rootAbs st
  | chunk (st : SessState) (offset chunkLen : Int) (h : Reach cfg cwd rootAbs st) :
      Reach cfg cwd rootAbs (handleChunk cfg st offset chunkLen).2
  | complete (st : SessState) (h : Reach cfg cwd rootAbs st) :
      Reach cfg cwd rootAbs (handleComplete cfg cwd rootAbs st).2
  | cancel (st : SessState) (h : Reach cfg cwd rootAbs st) :
      Reach cfg cwd rootAbs (handleCancel st).2

/-- The session metadata invariant of the spec: the uploaded size stays
within `[0, total_size]` and a completed session is exactly full. -/
def SessInv (st : SessState) : Prop :=
  ∀ m, st.meta = some m →
    0 ≤ m.uploadedSize ∧ m.uploadedSize ≤ m.totalSize ∧
      (m.completed = true → m.uploadedSize = m.totalSize)

/-- The durable (persisted) uploaded size of a session id, `0` when no
metadata exists. -/
def storedUploaded (st : SessState) : Int :=
  match st.meta with
  | none => 0
  | some m => m.uploadedSize

/-- Run a sequence of chunk requests against a session id's state. -/
def applyChunks (cfg : GoCfg) : SessState → List (Int × Int) → SessState
  | st, [] => st
  | st, (o, l) :: rest => applyChunks cfg (handleChunk cfg st o l).2 rest

/-- Well-formedness of the tree returned by the directory scan, relative to
the absolute directory the walk reached the node at: the node sits inside
the storage root, no node is named after the state directory, and every
child enjoys the same property at its re-resolved absolute path. -/
def DirNode.Good (cwd rootAbs stateDir : String) : String → DirNode → Prop
  | absDir, .mk name _relPath children =>
    name ≠ stateDir ∧ isSubpath absDir rootAbs = true ∧
      ∀ c ∈ children, DirNode.Good cwd rootAbs stateDir (goAbs cwd (goJoin absDir c.nodeName)) c
termination_by _ node => sizeOf node
decreasing_by
  simp_wf
  have h1 := List.sizeOf_lt_of_mem (by assumption : c ∈ children)
  omega

/-! ## Concrete fixtures used by the witnesses and validation examples -/

def cfgT : GoCfg := { maxChunkBytes := 16, maxFileBytes := 0 }

def metaT : UploadMeta :=
  { uploadID := "u", createdAt := 0, filename := "a.bin", relPath := "x/a.bin",
    totalSize := 10, chunkSize := 5, uploadedSize := 0, completed := false }

def stT : SessState := { meta := some metaT, part := some [], lastSaved := none }

def stFull : SessState :=
  { meta := some { metaT with uploadedSize := 10 }, part := some [(0, 10)], lastSaved := some 10 }

def metaC : UploadMeta :=
  { uploadID := "u", createdAt := 0, filename := "a.bin", relPath := "x/a.bin",
    totalSize := 100, chunkSize := 5, uploadedSize := 0, completed := false }

def stC : SessState := { meta := some metaC, part := some [], lastSaved := none }

def metaSlash : UploadMeta :=
  { uploadID := "u", createdAt := 0, filename := "a", relPath := "/",
    totalSize := 1, chunkSize := 1, uploadedSize := 0, completed := false }

def stSlash0 : SessState := { meta := some metaSlash, part := some [], lastSaved := none }

def stSlash1 : SessState :=
  { meta := some { metaSlash with uploadedSize := 1 }, part := some [(0, 1)],
    lastSaved := some 1 }

def fsT : String → Option (List (String × Bool)) := fun d =>
  if d = "/up" then some [(".st", true), ("docs", true), ("f.txt", false)]
  else if d = "/up/docs" then some [("img", true)]
  else if d = "/up/docs/img" then some []
  else none

section Scratch
example : goClean "a/b/" = "a/b" := by decide
example : goClean "a//b" = "a/b" := by decide
example : goClean "a/../b" = "b" := by decide
example : goClean "../a" = "../a" := by decide
example : goClean "/.." = "/" := by decide
example : goClean "//etc/passwd" = "/etc/passwd" := by decide
example : goClean "" = "." := by decide
example : goClean "/" = "/" := by decide
example : goClean "./x" = "x" := by decide
example : goClean "a/.." = "." := by decide
example : sanitizeRelPath "/a" = .ok "a" := by decide
example : sanitizeRelPath "a/../b" = .ok "b" := by decide
example : sanitizeRelPath "../../etc/passwd" = .error "invalid path" := by decide
example : sanitizeRelPath "  x/a.bin " = .ok "x/a.bin" := by decide
example : sanitizeRelPath "//" = .ok "/" := by decide
example : sanitizeRelPath "/" = .error "empty path" := by decide
example : sanitizeRelPath "" = .error "empty path" := by decide
example : sanitizeRelPath "a\\b" = .ok "a/b" := by decide
example : sanitizeRelPath "x/.." = .error "invalid path" := by decide
example : sanitizeRelPath "./../a" = .error "invalid path" := by decide
example : sanitizeRelPath ".." = .error "invalid path" := by decide
example : goBase "a/b/c" = "c" := by decide
example : goBase "a/b/" = "b" := by decide
example : goBase "/" = "/" := by decide
example : goBase "" = "." := by decide
example : goRel "/a" "/a/b" = some "b" := by decide
example : goRel "/a/b" "/a" = some ".." := by decide
example : goRel "/a" "/ab" = some "../ab" := by decide
example : goRel "a" "." = some "../." := by decide
example : goRel ".." "." = none := by decide
example : goRel "." ".." = some ".." := by decide
example : goRel "/a/b/../c" "/a/b" = some "../b" := by decide
example : goRel "/a/b" "/c/d" = some "../../c/d" := by decide
example : goRel "." "x/y" = some "x/y" := by decide
example : goRel "/a" "b" = none := by decide
example : isSubpath "/r/x" "/r" = true := by decide
example : isSubpath "/r" "/r" = true := by decide
example : isSubpath "/q/x" "/r" = false := by decide
example : isSubpath "/r/../q" "/r" = false := by decide
example : finalAbsPath "/" "/data" "x/a.bin" = .ok "/data/x/a.bin" := by decide
example : finalAbsPath "/" "/data" "/" = .error "empty path" := by decide

example : metaSaveInterval cfgT = 67108864 := by decide
example :
    handleInit cfgT "u" 0 { filename := "a.bin", path := "x/a.bin", totalSize := 10, chunkSize := 5 } =
      .ok ({ uploadID := "u", createdAt := 0, filename := "a.bin", relPath := "x/a.bin",
             totalSize := 10, chunkSize := 5, uploadedSize := 0, completed := false },
           { meta := some { uploadID := "u", createdAt := 0, filename := "a.bin",
                            relPath := "x/a.bin", totalSize := 10, chunkSize := 5,
                            uploadedSize := 0, completed := false },
             part := some [], lastSaved := none }) := by decide
example :
    handleInit cfgT "u" 0 { filename := "", path := "  ", totalSize := 10, chunkSize := 5 } =
      .error (.badRequest "invalid path") := by decide
example :
    handleInit cfgT "u" 0 { filename := "a", path := "../x", totalSize := 10, chunkSize := 5 } =
      .error (.badRequest "invalid path") := by decide
example : (handleChunk cfgT stT 0 5).1 = .ok 5 := by decide
example : (handleChunk cfgT stT 0 5).2.meta = some metaT := by decide
example : (handleChunk cfgT stT 0 10).2.meta =
    some { metaT with uploadedSize := 10 } := by decide
example : handleChunk cfgT stT 8 5 = (.error (.badRequest "chunk out of range"), stT) := by decide
example : handleChunk cfgT stT (-1) 5 = (.error (.badRequest "invalid offset"), stT) := by decide
example : handleChunk cfgT stT 0 17 = (.error .tooLarge, stT) := by decide
example : handleChunk cfgT emptySess (-1) 5 =
    (.error (.badRequest "invalid offset"), emptySess) := by decide
example : handleComplete cfgT "/" "/data" stT = (.error .conflict, stT) := by decide
example : handleComplete cfgT "/" "/data" stFull =
    (.ok "/data/x/a.bin",
     { meta := some { metaT with uploadedSize := 10, completed := true },
       part := none, lastSaved := some 10 }) := by decide
example : handleCancel stT = (.ok (), emptySess) := by decide
example : handleCancel emptySess = (.error .notFound, emptySess) := by decide
example : handleStatus emptySess = .error .notFound := by decide
example : resolveMaxDepth "" = 4 := by decide
example : resolveMaxDepth "-1" = 4 := by decide
example : resolveMaxDepth "21" = 4 := by decide
example : resolveMaxDepth "xy" = 4 := by decide
example : resolveMaxDepth "7" = 7 := by decide
example : resolveMaxEntries "0" = 5000 := by decide
example : resolveMaxEntries "200001" = 5000 := by decide
example : resolveMaxEntries "3" = 3 := by decide

example : buildNode fsT ".st" "/up" "/" 5000 4 "/up" "" 0 =
    (.mk "up" "" [.mk "docs" "docs" [.mk "img" "docs/img" []]], 2, false) := by rfl
example : buildNode fsT ".st" "/up" "/" 5000 1 "/up" "" 0 =
    (.mk "up" "" [.mk "docs" "docs" []], 1, false) := by rfl
example : handleStorageTree fsT ".st" "/up" "/" "" "" =
    .ok (.mk "up" "" [.mk "docs" "docs" [.mk "img" "docs/img" []]]) := by rfl
example : handleStorageTree fsT ".st" "/nope" "/" "" "" = .error .internalErr := by rfl
example : handleStorageTree fsT ".st" "/nope" "/" "0" "" =
    .ok (.mk "nope" "" []) := by rfl
end Scratch

/-! ## Lemmas: prefixes, splitting and joining -/

theorem strEta (s : String) : String.mk s.data = s := rfl

theorem goStartsWith_iff (s pre : String) :
    goStartsWith s pre = true ↔ ∃ t, s.data = pre.data ++ t := by
  rw [goStartsWith, List.isPrefixOf_iff_prefix]
  constructor
  · rintro ⟨t, h⟩; exact ⟨t, h.symm⟩
  · rintro ⟨t, h⟩; exact ⟨t, h.symm⟩

theorem splitSlashAux_no_slash (pre : List Char) (h : '/' ∉ pre) (acc : List Char) :
    splitSlashAux acc pre = [String.mk (acc.reverse ++ pre)] := by
  induction pre generalizing acc with
  | nil => simp [splitSlashAux]
  | cons c rest ih =>
    have hc : ¬ c = '/' := fun hc => h (by simp [hc])
    rw [splitSlashAux, if_neg hc, ih (fun hm => h (by simp [hm])) (c :: acc)]
    simp

theorem splitSlashAux_split (pre : List Char) (h : '/' ∉ pre) (acc post : List Char) :
    splitSlashAux acc (pre ++ '/' :: post) =
      String.mk (acc.reverse ++ pre) :: splitSlash post := by
  induction pre generalizing acc with
  | nil => simp [splitSlashAux, splitSlash]
  | cons c rest ih =>
    have hc : ¬ c = '/' := fun hc => h (by simp [hc])
    rw [List.cons_append, splitSlashAux, if_neg hc,
      ih (fun hm => h (by simp [hm])) (c :: acc)]
    simp

theorem splitSlash_join (cs : List String) (h1 : cs ≠ [])
    (h2 : ∀ c ∈ cs, '/' ∉ c.data) : splitSlash (joinSlash cs) = cs := by
  induction cs with
  | nil => exact absurd rfl h1
  | cons c rest ih =>
    cases rest with
    | nil =>
      rw [joinSlash, splitSlash, splitSlashAux_no_slash c.data (h2 c (by simp)) []]
      simp
    | cons c2 rest2 =>
      have hj : joinSlash (c :: c2 :: rest2) = c.data ++ '/' :: joinSlash (c2 :: rest2) := rfl
      rw [hj, splitSlash, splitSlashAux_split c.data (h2 c (by simp)) []]
      rw [ih (List.cons_ne_nil c2 rest2) (fun x hx => h2 x (List.mem_cons_of_mem c hx))]
      simp [strEta]

theorem splitSlash_join_append (cs : List String) (h1 : cs ≠ [])
    (h2 : ∀ c ∈ cs, '/' ∉ c.data) (l : List Char) :
    splitSlash (joinSlash cs ++ '/' :: l) = cs ++ splitSlash l := by
  induction cs with
  | nil => exact absurd rfl h1
  | cons c rest ih =>
    cases rest with
    | nil =>
      rw [joinSlash, splitSlash, splitSlashAux_split c.data (h2 c (by simp)) []]
      simp
    | cons c2 rest2 =>
      have hj : joinSlash (c :: c2 :: rest2) = c.data ++ '/' :: joinSlash (c2 :: rest2) := rfl
      rw [hj, List.append_assoc, List.cons_append, splitSlash,
        splitSlashAux_split c.data (h2 c (by simp)) []]
      rw [ih (List.cons_ne_nil c2 rest2) (fun x hx => h2 x (List.mem_cons_of_mem c hx))]
      simp [strEta]

theorem splitSlash_cons_slash (l : List Char) :
    splitSlash ('/' :: l) = "" :: splitSlash l := by
  rw [splitSlash, splitSlashAux]
  simp [splitSlash]

theorem mem_splitSlashAux_no_slash (l : List Char) (s : String) :
    ∀ acc, '/' ∉ acc → s ∈ splitSlashAux acc l → '/' ∉ s.data := by
  induction l with
  | nil =>
    intro acc hacc hs
    rw [splitSlashAux] at hs
    simp at hs
    subst hs
    simpa using fun hm => hacc (by simpa using hm)
  | cons c rest ih =>
    intro acc hacc hs
    rw [splitSlashAux] at hs
    by_cases hc : c = '/'
    · rw [if_pos hc] at hs
      rcases List.mem_cons.1 hs with h | h
      · subst h; simpa using fun hm => hacc (by simpa using hm)
      · exact ih [] (by simp) h
    · rw [if_neg hc] at hs
      exact ih (c :: acc) (by simpa using ⟨fun h => hc h.symm, hacc⟩) hs

theorem mem_splitSlash_no_slash (l : List Char) (s : String) (h : s ∈ splitSlash l) :
    '/' ∉ s.data :=
  mem_splitSlashAux_no_slash l s [] (by simp) h

/-! ## Lemmas: the Clean element loop -/

theorem foldl_cleanStep_keep (rooted : Bool) (cs : List String)
    (h : ∀ c ∈ cs, c ≠ "..") : ∀ acc,
    cs.foldl (cleanStep rooted) acc = (cs.filter keepComp).reverse ++ acc := by
  induction cs with
  | nil => intro acc; simp
  | cons c rest ih =>
    intro acc
    have hc : c ≠ ".." := h c (by simp)
    rw [List.foldl_cons, ih (fun x hx => h x (by simp [hx]))]
    by_cases h1 : c = "" ∨ c = "."
    · have hk : keepComp c = false := by simp [keepComp, h1]
      unfold cleanStep
      rw [if_pos h1]
      simp [List.filter_cons, hk]
    · have hk : keepComp c = true := by simp [keepComp]; tauto
      unfold cleanStep
      rw [if_neg h1, if_neg hc]
      simp [List.filter_cons, hk]

theorem cleanComps_keep (rooted : Bool) (cs : List String) (h : ∀ c ∈ cs, c ≠ "..") :
    cleanComps rooted cs = cs.filter keepComp := by
  rw [cleanComps, foldl_cleanStep_keep rooted cs h []]
  simp

theorem mem_cleanStep (rooted : Bool) (acc : List String) (c x : String)
    (hx : x ∈ cleanStep rooted acc c) :
    x ∈ acc ∨ (x = c ∧ ¬ (c = "" ∨ c = ".") ∧ c ≠ "..") ∨ x = ".." := by
  by_cases h1 : c = "" ∨ c = "."
  · simp only [cleanStep, if_pos h1] at hx
    exact .inl hx
  · by_cases h2 : c = ".."
    · simp only [cleanStep, if_neg h1, if_pos h2] at hx
      cases rooted with
      | false =>
        simp only [Bool.false_eq_true, if_false] at hx
        match acc, hx with
        | [], hx => exact .inr (.inr (by simpa using hx))
        | top :: rest, hx =>
          have hx' : x ∈ if top = ".." then ".." :: top :: rest else rest := hx
          by_cases h4 : top = ".."
          · rw [if_pos h4] at hx'
            rcases List.mem_cons.1 hx' with h | h
            · exact .inr (.inr h)
            · exact .inl h
          · rw [if_neg h4] at hx'
            exact .inl (List.mem_cons_of_mem top hx')
      | true =>
        simp only [if_true] at hx
        match acc, hx with
        | [], hx => exact absurd hx (by simp)
        | top :: rest, hx => exact .inl (List.mem_cons_of_mem top (hx : x ∈ rest))
    · simp only [cleanStep, if_neg h1, if_neg h2] at hx
      rcases List.mem_cons.1 hx with h | h
      · exact .inr (.inl ⟨h, h1, h2⟩)
      · exact .inl h

theorem mem_foldl_cleanStep (rooted : Bool) (cs : List String) (x : String) :
    ∀ acc, x ∈ cs.foldl (cleanStep rooted) acc →
      x ∈ acc ∨ (x ∈ cs ∧ ¬ (x = "" ∨ x = ".")) ∨ x = ".." := by
  induction cs with
  | nil => intro acc h; exact .inl h
  | cons c rest ih =>
    intro acc h
    rw [List.foldl_cons] at h
    rcases ih _ h with h1 | h1 | h1
    · rcases mem_cleanStep rooted acc c x h1 with h2 | h2 | h2
      · exact .inl h2
      · exact .inr (.inl ⟨by simp [h2.1], by rw [h2.1]; exact h2.2.1⟩)
      · exact .inr (.inr h2)
    · exact .inr (.inl ⟨List.mem_cons_of_mem c h1.1, h1.2⟩)
    · exact .inr (.inr h1)

theorem no_dotdot_cleanStep_rooted (acc : List String) (c x : String)
    (hacc : ∀ a ∈ acc, a ≠ "..") (hx : x ∈ cleanStep true acc c) : x ≠ ".." := by
  by_cases h1 : c = "" ∨ c = "."
  · exact hacc x (by simpa [cleanStep, h1] using hx)
  · by_cases h2 : c = ".."
    · have hx' : x ∈ acc.tail := by simpa [cleanStep, h1, h2] using hx
      cases acc with
      | nil => simp at hx'
      | cons top rest => exact hacc x (List.mem_cons_of_mem top hx')
    · have hx' : x = c ∨ x ∈ acc := by simpa [cleanStep, h1, h2] using hx
      rcases hx' with h | h
      · exact h ▸ h2
      · exact hacc x h

theorem no_dotdot_foldl_rooted (cs : List String) (x : String) :
    ∀ acc, (∀ a ∈ acc, a ≠ "..") → x ∈ cs.foldl (cleanStep true) acc → x ≠ ".." := by
  induction cs with
  | nil => intro acc hacc h; exact hacc x h
  | cons c rest ih =>
    intro acc hacc h
    rw [List.foldl_cons] at h
    exact ih _ (fun a ha => no_dotdot_cleanStep_rooted acc c a hacc ha) h

theorem stackOK_cleanStep (acc : List String) (c : String)
    (h : ∃ xs ds, acc = xs ++ ds ∧ (∀ x ∈ xs, x ≠ "..") ∧ (∀ d ∈ ds, d = "..")) :
    ∃ xs ds, cleanStep false acc c = xs ++ ds ∧
      (∀ x ∈ xs, x ≠ "..") ∧ (∀ d ∈ ds, d = "..") := by
  obtain ⟨xs, ds, rfl, hxs, hds⟩ := h
  by_cases h1 : c = "" ∨ c = "."
  · exact ⟨xs, ds, by simp [cleanStep, h1], hxs, hds⟩
  · by_cases h2 : c = ".."
    · cases xs with
      | nil =>
        cases ds with
        | nil => exact ⟨[], [".."], by simp [cleanStep, h1, h2], by simp, by simp⟩
        | cons d ds' =>
          have hd : d = ".." := hds d (by simp)
          refine ⟨[], ".." :: d :: ds', ?_, by simp, ?_⟩
          · simp [cleanStep, h1, h2, hd]
          · intro a ha
            rcases List.mem_cons.1 ha with h | h
            · exact h
            · exact hds a h
      | cons top xs' =>
        have htop : top ≠ ".." := hxs top (by simp)
        refine ⟨xs', ds, ?_, fun a ha => hxs a (List.mem_cons_of_mem top ha), hds⟩
        simp [cleanStep, h1, h2, htop]
    · refine ⟨c :: xs, ds, by simp [cleanStep, h1, h2], ?_, hds⟩
      intro a ha
      rcases List.mem_cons.1 ha with h | h
      · exact h ▸ h2
      · exact hxs a h

theorem stackOK_foldl (cs : List String) : ∀ acc,
    (∃ xs ds, acc = xs ++ ds ∧ (∀ x ∈ xs, x ≠ "..") ∧ (∀ d ∈ ds, d = "..")) →
    ∃ xs ds, cs.foldl (cleanStep false) acc = xs ++ ds ∧
      (∀ x ∈ xs, x ≠ "..") ∧ (∀ d ∈ ds, d = "..") := by
  induction cs with
  | nil => intro acc h; exact h
  | cons c rest ih =>
    intro acc h
    rw [List.foldl_cons]
    exact ih _ (stackOK_cleanStep acc c h)

theorem dotdot_bottom_cleanStep (acc : List String) (c : String)
    (h : ∃ l, acc = l ++ [".."]) : ∃ l, cleanStep false acc c = l ++ [".."] := by
  obtain ⟨l, rfl⟩ := h
  by_cases h1 : c = "" ∨ c = "."
  · exact ⟨l, by simp [cleanStep, h1]⟩
  · by_cases h2 : c = ".."
    · cases l with
      | nil => exact ⟨[".."], by simp [cleanStep, h1, h2]⟩
      | cons a l' =>
        by_cases h4 : a = ".."
        · exact ⟨".." :: a :: l', by simp [cleanStep, h1, h2, h4]⟩
        · exact ⟨l', by simp [cleanStep, h1, h2, h4]⟩
    · exact ⟨c :: l, by simp [cleanStep, h1, h2]⟩

theorem dotdot_bottom_foldl (cs : List String) : ∀ acc, (∃ l, acc = l ++ [".."]) →
    ∃ l, cs.foldl (cleanStep false) acc = l ++ [".."] := by
  induction cs with
  | nil => intro acc h; exact h
  | cons c rest ih =>
    intro acc h
    rw [List.foldl_cons]
    exact ih _ (dotdot_bottom_cleanStep acc c h)

theorem goClean_eq_rooted (p : String) (hne : ¬ p = "") (hr : p.data.head? = some '/') :
    goClean p = String.mk ('/' :: joinSlash (cleanComps true (splitSlash p.data))) := by
  unfold goClean
  rw [if_neg hne, if_pos hr]
  simp [hr]

theorem goClean_eq_rel (p : String) (hne : ¬ p = "") (hr : ¬ p.data.head? = some '/') :
    goClean p =
      (if cleanComps false (splitSlash p.data) = [] then "."
       else String.mk (joinSlash (cleanComps false (splitSlash p.data)))) := by
  unfold goClean
  rw [if_neg hne, if_neg hr]
  simp [hr]

theorem joinSlash_dotdot_head (t : List String) :
    String.mk (joinSlash (".." :: t)) = ".." ∨
      goStartsWith (String.mk (joinSlash (".." :: t))) "../" = true := by
  cases t with
  | nil => exact .inl rfl
  | cons a t' =>
    right
    rw [goStartsWith_iff]
    exact ⟨joinSlash (a :: t'), rfl⟩

theorem join_ne_dotdot (out : List String) (hne : out ≠ [])
    (hgood : ∀ c ∈ out, goodComp c) : ¬ String.mk (joinSlash out) = ".." := by
  intro h
  have hd : joinSlash out = ['.', '.'] := congrArg String.data h
  cases out with
  | nil => exact hne rfl
  | cons c rest =>
    obtain ⟨hc1, hc2, hc3, hc4⟩ := hgood c (by simp)
    cases rest with
    | nil =>
      rw [joinSlash] at hd
      exact hc3 (String.ext hd)
    | cons c2 rest2 =>
      have hj : joinSlash (c :: c2 :: rest2) = c.data ++ '/' :: joinSlash (c2 :: rest2) := rfl
      rw [hj] at hd
      have : '/' ∈ c.data ++ '/' :: joinSlash (c2 :: rest2) := by simp
      rw [hd] at this
      simp at this

theorem join_no_dotdot_lead (out : List String) (hne : out ≠ [])
    (hgood : ∀ c ∈ out, goodComp c) :
    goStartsWith (String.mk (joinSlash out)) "../" = false := by
  rw [Bool.eq_false_iff]
  intro h
  obtain ⟨t, ht⟩ := (goStartsWith_iff _ _).1 h
  cases out with
  | nil => exact hne rfl
  | cons c rest =>
    obtain ⟨hc1, hc2, hc3, hc4⟩ := hgood c (by simp)
    have hx : ∃ X, joinSlash (c :: rest) = c.data ++ X ∧ (X = [] ∨ ∃ Y, X = '/' :: Y) := by
      cases rest with
      | nil => exact ⟨[], by simp [joinSlash], .inl rfl⟩
      | cons c2 rest2 => exact ⟨'/' :: joinSlash (c2 :: rest2), rfl, .inr ⟨_, rfl⟩⟩
    obtain ⟨X, hX, hXs⟩ := hx
    rw [hX] at ht
    have hpre : ("../" : String).data = ['.', '.', '/'] := rfl
    rw [hpre] at ht
    rcases hcd : c.data with _ | ⟨a, _ | ⟨b, _ | ⟨e, cd⟩⟩⟩
    · exact hc1 (String.ext (by simp [hcd]))
    · rw [hcd] at ht
      rcases hXs with rfl | ⟨Y, rfl⟩
      · simp at ht
      · simp at ht
    · rw [hcd] at ht
      simp at ht
      exact hc3 (String.ext (by simp [hcd, ht.1, ht.2.1]))
    · rw [hcd] at ht
      simp at ht
      exact hc4 (by simp [hcd, ht.2.2.1])

theorem sanitize_ok_shape (p rel : String) (h : sanitizeRelPath p = .ok rel) :
    ∃ out, (∀ c ∈ out, goodComp c) ∧
      ((out ≠ [] ∧ rel = String.mk (joinSlash out)) ∨ rel = mkAbs out) := by
  simp only [sanitizeRelPath] at h
  set q := goTrimLead (goTrimLead (goTrimSpace (goReplaceSlashes p)) "/") "./" with hqdef
  by_cases hq0 : q = ""
  · rw [if_pos hq0] at h; simp at h
  · rw [if_neg hq0] at h
    by_cases hchk : goClean q = "." ∨ goClean q = ".." ∨ goStartsWith (goClean q) "../" = true
    · rw [if_pos hchk] at h; simp at h
    · rw [if_neg hchk] at h
      rw [if_neg (by simp [goVolumeName])] at h
      have hrel : rel = goClean q := by simpa using h.symm
      push_neg at hchk
      obtain ⟨hchk1, hchk2, hchk3⟩ := hchk
      by_cases hr : q.data.head? = some '/'
      · rw [goClean_eq_rooted q hq0 hr] at hrel
        refine ⟨cleanComps true (splitSlash q.data), ?_, .inr hrel⟩
        intro c hc
        have hc' : c ∈ (splitSlash q.data).foldl (cleanStep true) [] := by
          simpa [cleanComps] using hc
        have hnd : c ≠ ".." := no_dotdot_foldl_rooted _ c [] (by simp) hc'
        rcases mem_foldl_cleanStep true _ c [] hc' with h1 | h1 | h1
        · simp at h1
        · exact ⟨fun he => h1.2 (.inl he), fun he => h1.2 (.inr he), hnd,
            mem_splitSlash_no_slash _ c h1.1⟩
        · exact absurd h1 hnd
      · by_cases hout : cleanComps false (splitSlash q.data) = []
        · exact absurd (by rw [goClean_eq_rel q hq0 hr, if_pos hout]) hchk1
        · have hclean : goClean q = String.mk (joinSlash (cleanComps false (splitSlash q.data))) := by
            rw [goClean_eq_rel q hq0 hr, if_neg hout]
          obtain ⟨xs, ds, hsplit, hxs, hds⟩ :=
            stackOK_foldl (splitSlash q.data) [] ⟨[], [], rfl, by simp, by simp⟩
          have hout_eq : cleanComps false (splitSlash q.data) = ds.reverse ++ xs.reverse := by
            rw [cleanComps, hsplit, List.reverse_append]
          have hds_nil : ds = [] := by
            by_contra hne
            have hrevne : ds.reverse ≠ [] := by simpa using hne
            cases hrev : ds.reverse with
            | nil => exact hrevne hrev
            | cons hd tl =>
              have hhd : hd = ".." :=
                hds hd (List.mem_reverse.1 (by rw [hrev]; exact List.mem_cons_self hd tl))
              have hshape : cleanComps false (splitSlash q.data) = ".." :: (tl ++ xs.reverse) := by
                rw [hout_eq, hrev, hhd]; simp
              rcases joinSlash_dotdot_head (tl ++ xs.reverse) with hcase | hcase
              · exact hchk2 (by rw [hclean, hshape, hcase])
              · refine hchk3 ?_
                rw [hclean, hshape]
                exact hcase
          refine ⟨cleanComps false (splitSlash q.data), ?_, .inl ⟨hout, by rw [hrel, hclean]⟩⟩
          intro c hc
          have hc' : c ∈ (splitSlash q.data).foldl (cleanStep false) [] := by
            simpa [cleanComps] using hc
          have hnd : c ≠ ".." := by
            intro he
            have : c ∈ xs := by
              have := hc'
              rw [hsplit, hds_nil, List.append_nil] at this
              exact this
            exact hxs c this he
          rcases mem_foldl_cleanStep false _ c [] hc' with h1 | h1 | h1
          · simp at h1
          · exact ⟨fun he => h1.2 (.inl he), fun he => h1.2 (.inr he), hnd,
              mem_splitSlash_no_slash _ c h1.1⟩
          · exact absurd h1 hnd

theorem good_no_slash (cs : List String) (h : ∀ c ∈ cs, goodComp c) :
    ∀ c ∈ cs, '/' ∉ c.data :=
  fun c hc => (h c hc).2.2.2

theorem filter_keep_good (cs : List String) (h : ∀ c ∈ cs, goodComp c) :
    cs.filter keepComp = cs := by
  apply List.filter_eq_self.2
  intro a ha
  obtain ⟨ha1, ha2, _, _⟩ := h a ha
  simp [keepComp, ha1, ha2]

theorem mkAbs_ne_empty (cs : List String) : ¬ mkAbs cs = "" := by
  intro he
  exact absurd (congrArg String.data he) (by simp [mkAbs])

theorem mkAbs_ne_dot (cs : List String) : ¬ mkAbs cs = "." := by
  intro he
  have := congrArg String.data he
  simp only [mkAbs] at this
  have h2 : '/' = '.' := by injection this
  simp at h2

theorem mkAbs_head (cs : List String) : (mkAbs cs).data.head? = some '/' := rfl

theorem splitSlash_mkAbs (cs : List String) (h1 : cs ≠ []) (h2 : ∀ c ∈ cs, '/' ∉ c.data) :
    splitSlash (mkAbs cs).data = "" :: cs := by
  show splitSlash ('/' :: joinSlash cs) = "" :: cs
  rw [splitSlash_cons_slash, splitSlash_join cs h1 h2]

theorem goClean_mkAbs (cs : List String) (h : ∀ c ∈ cs, goodComp c) :
    goClean (mkAbs cs) = mkAbs cs := by
  cases cs with
  | nil => decide
  | cons c rest =>
    rw [goClean_eq_rooted _ (mkAbs_ne_empty _) (mkAbs_head _),
      splitSlash_mkAbs _ (List.cons_ne_nil c rest) (good_no_slash _ h)]
    rw [cleanComps_keep true _ ?hnd]
    case hnd =>
      intro x hx
      rcases List.mem_cons.1 hx with h' | h'
      · subst h'; decide
      · exact (h x h').2.2.1
    have hk : keepComp "" = false := by decide
    rw [List.filter_cons_of_neg (by simp [hk]), filter_keep_good _ h]
    rfl

theorem joinSlash_good_ne_nil (out : List String) (hne : out ≠ [])
    (hgood : ∀ c ∈ out, goodComp c) : joinSlash out ≠ [] := by
  cases out with
  | nil => exact absurd rfl hne
  | cons c rest =>
    have hc : c.data ≠ [] := by
      intro he
      exact (hgood c (by simp)).1 (String.ext he)
    cases rest with
    | nil => simpa [joinSlash] using hc
    | cons c2 rest2 =>
      have hj : joinSlash (c :: c2 :: rest2) = c.data ++ '/' :: joinSlash (c2 :: rest2) := rfl
      rw [hj]
      simp

theorem dropCommon_self_append (l ts : List String) : dropCommon l (l ++ ts) = ([], ts) := by
  induction l with
  | nil => cases ts <;> rfl
  | cons a l' ih => simp [dropCommon, ih]

theorem concat_data (a b : String) :
    (a ++ "/" ++ b).data = a.data ++ '/' :: b.data := by
  rw [String.data_append, String.data_append]
  simp

theorem goJoin_mkAbs_core (rc : List String) (h1 : rc ≠ [])
    (h2 : ∀ c ∈ rc, goodComp c) (b : String) (hb : ¬ b = "")
    (out : List String)
    (hnd : ∀ c ∈ splitSlash b.data, c ≠ "..")
    (hsplit : (splitSlash b.data).filter keepComp = out) :
    goJoin (mkAbs rc) b = mkAbs (rc ++ out) := by
  rw [goJoin, if_neg (by intro hand; exact mkAbs_ne_empty rc hand.1),
    if_neg (mkAbs_ne_empty rc), if_neg hb]
  have hdata : (mkAbs rc ++ "/" ++ b).data = '/' :: (joinSlash rc ++ '/' :: b.data) := by
    rw [concat_data]
    show ('/' :: joinSlash rc) ++ '/' :: b.data = _
    simp
  have hne : ¬ (mkAbs rc ++ "/" ++ b) = "" := by
    intro he
    have := congrArg String.data he
    rw [hdata] at this
    simp at this
  have hhead : (mkAbs rc ++ "/" ++ b).data.head? = some '/' := by rw [hdata]; rfl
  rw [goClean_eq_rooted _ hne hhead, hdata]
  rw [splitSlash_cons_slash, splitSlash_join_append rc h1 (good_no_slash rc h2)]
  have hnd2 : ∀ c ∈ "" :: (rc ++ splitSlash b.data), c ≠ ".." := by
    intro c hc
    rcases List.mem_cons.1 hc with h | h
    · intro hdd; simp [h] at hdd
    · rcases List.mem_append.1 h with h | h
      · exact (h2 c h).2.2.1
      · exact hnd c h
  rw [cleanComps_keep true _ hnd2]
  have hk : keepComp "" = false := by decide
  simp only [List.filter_cons, hk, if_false, List.filter_append,
    filter_keep_good rc h2, hsplit, Bool.false_eq_true]
  rfl

theorem goJoin_mkAbs_rel (rc out : List String) (h1 : rc ≠ [])
    (h2 : ∀ c ∈ rc, goodComp c) (h3 : ∀ c ∈ out, goodComp c) (h4 : out ≠ []) :
    goJoin (mkAbs rc) (String.mk (joinSlash out)) = mkAbs (rc ++ out) := by
  have hsj : splitSlash (String.mk (joinSlash out)).data = out :=
    splitSlash_join out h4 (good_no_slash out h3)
  apply goJoin_mkAbs_core rc h1 h2 _ ?hb out ?hnd ?hf
  case hb =>
    intro he
    exact joinSlash_good_ne_nil out h4 h3 (congrArg String.data he)
  case hnd =>
    intro c hc
    rw [hsj] at hc
    exact (h3 c hc).2.2.1
  case hf => rw [hsj, filter_keep_good out h3]

theorem goJoin_mkAbs_rooted (rc out : List String) (h1 : rc ≠ [])
    (h2 : ∀ c ∈ rc, goodComp c) (h3 : ∀ c ∈ out, goodComp c) :
    goJoin (mkAbs rc) (mkAbs out) = mkAbs (rc ++ out) := by
  cases out with
  | nil =>
    apply goJoin_mkAbs_core rc h1 h2 _ (mkAbs_ne_empty []) [] ?hnd ?hf
    case hnd =>
      intro c hc
      have hss : splitSlash (mkAbs []).data = ["", ""] := rfl
      rw [hss] at hc
      intro hdd
      rcases List.mem_cons.1 hc with h | h
      · simp [h] at hdd
      · simp at h
        simp [h] at hdd
    case hf => decide
  | cons c0 rest =>
    have hsj : splitSlash (mkAbs (c0 :: rest)).data = "" :: c0 :: rest :=
      splitSlash_mkAbs (c0 :: rest) (List.cons_ne_nil c0 rest) (good_no_slash _ h3)
    apply goJoin_mkAbs_core rc h1 h2 _ (mkAbs_ne_empty _) (c0 :: rest) ?hnd ?hf
    case hnd =>
      intro c hc
      rw [hsj] at hc
      rcases List.mem_cons.1 hc with h | h
      · intro hdd; simp [h] at hdd
      · exact (h3 c h).2.2.1
    case hf =>
      have hk : keepComp "" = false := by decide
      rw [hsj, List.filter_cons_of_neg (by simp [hk]), filter_keep_good _ h3]

theorem goRel_mkAbs_append (rc out : List String) (h1 : rc ≠ [])
    (h2 : ∀ c ∈ rc, goodComp c) (h3 : ∀ c ∈ out, goodComp c) :
    goRel (mkAbs rc) (mkAbs (rc ++ out)) =
      some (if out = [] then "." else String.mk (joinSlash out)) := by
  have hgood : ∀ c ∈ rc ++ out, goodComp c := fun c hc =>
    (List.mem_append.1 hc).elim (h2 c) (h3 c)
  unfold goRel
  rw [goClean_mkAbs rc h2, goClean_mkAbs (rc ++ out) hgood]
  by_cases hout : out = []
  · subst hout
    rw [List.append_nil, if_pos rfl]
    simp
  · rw [if_neg ?hne]
    case hne =>
      intro he
      have hd := congrArg String.data he
      simp only [mkAbs] at hd
      have hj : joinSlash (rc ++ out) = joinSlash rc := by injection hd
      have hsp : splitSlash (joinSlash (rc ++ out)) = splitSlash (joinSlash rc) := by
        rw [hj]
      rw [splitSlash_join rc h1 (good_no_slash rc h2),
        splitSlash_join (rc ++ out) (by simp [h1]) (good_no_slash _ hgood)] at hsp
      have hcat : rc ++ out = rc ++ [] := by rw [List.append_nil]; exact hsp
      exact hout (List.append_cancel_left hcat)
    rw [if_neg (mkAbs_ne_dot rc), if_neg (by simp [mkAbs_head]),
      if_neg (mkAbs_ne_empty rc),
      splitSlash_mkAbs rc h1 (good_no_slash rc h2),
      splitSlash_mkAbs (rc ++ out) (by simp [h1]) (good_no_slash _ hgood)]
    have hdc : dropCommon ("" :: rc) ("" :: (rc ++ out)) = ([], out) := by
      have he : ("" :: rc) ++ out = "" :: (rc ++ out) := rfl
      rw [← he, dropCommon_self_append]
    simp only [hdc]
    simp [hout]

theorem isSubpath_mkAbs_append (rc out : List String) (h1 : rc ≠ [])
    (h2 : ∀ c ∈ rc, goodComp c) (h3 : ∀ c ∈ out, goodComp c) :
    isSubpath (mkAbs (rc ++ out)) (mkAbs rc) = true := by
  have hgood : ∀ c ∈ rc ++ out, goodComp c := fun c hc =>
    (List.mem_append.1 hc).elim (h2 c) (h3 c)
  unfold isSubpath
  rw [goClean_mkAbs rc h2, goClean_mkAbs (rc ++ out) hgood,
    goRel_mkAbs_append rc out h1 h2 h3]
  by_cases hout : out = []
  · subst hout
    rw [if_pos rfl]
    decide
  · rw [if_neg hout]
    simp [join_ne_dotdot out hout h3, join_no_dotdot_lead out hout h3]

theorem sanitize_join_shape (rc : List String) (h1 : rc ≠ [])
    (h2 : ∀ c ∈ rc, goodComp c) (p rel : String) (h : sanitizeRelPath p = .ok rel) :
    ∃ out, (∀ c ∈ out, goodComp c) ∧ goJoin (mkAbs rc) rel = mkAbs (rc ++ out) := by
  obtain ⟨out, hgood, hcase⟩ := sanitize_ok_shape p rel h
  refine ⟨out, hgood, ?_⟩
  rcases hcase with ⟨hne, hrel⟩ | hrel
  · rw [hrel]; exact goJoin_mkAbs_rel rc out h1 h2 hgood hne
  · rw [hrel]; exact goJoin_mkAbs_rooted rc out h1 h2 hgood

theorem goAbs_mkAbs (cwd : String) (cs : List String) (h : ∀ c ∈ cs, goodComp c) :
    goAbs cwd (mkAbs cs) = mkAbs cs := by
  rw [goAbs, if_pos ?habs]
  case habs => simp [goIsAbs, goStartsWith, List.isPrefixOf, mkAbs]
  exact goClean_mkAbs cs h

theorem finalAbsPath_ok (rc : List String) (cwd : String) (h1 : rc ≠ [])
    (h2 : ∀ c ∈ rc, goodComp c) (p rel : String) (h : sanitizeRelPath p = .ok rel) :
    finalAbsPath cwd (mkAbs rc) p = .ok (goJoin (mkAbs rc) rel) ∧
      isSubpath (goJoin (mkAbs rc) rel) (mkAbs rc) = true := by
  obtain ⟨out, hgood, hjoin⟩ := sanitize_join_shape rc h1 h2 p rel h
  have hgoodall : ∀ c ∈ rc ++ out, goodComp c := fun c hc =>
    (List.mem_append.1 hc).elim (h2 c) (hgood c)
  have hsub : isSubpath (goJoin (mkAbs rc) rel) (mkAbs rc) = true := by
    rw [hjoin]; exact isSubpath_mkAbs_append rc out h1 h2 hgood
  have habs : goAbs cwd (goJoin (mkAbs rc) rel) = goJoin (mkAbs rc) rel := by
    rw [hjoin]; exact goAbs_mkAbs cwd (rc ++ out) hgoodall
  refine ⟨?_, hsub⟩
  unfold finalAbsPath
  rw [h]
  simp [habs, hsub]

theorem sanitize_rejects_dotdot_lead (p : String)
    (h : goTrimSpace (goReplaceSlashes p) = ".." ∨
      goStartsWith (goTrimSpace (goReplaceSlashes p)) "../" = true) :
    sanitizeRelPath p = .error "invalid path" := by
  rcases h with h | h
  · simp only [sanitizeRelPath]
    rw [h]
    decide
  · obtain ⟨t, ht⟩ := (goStartsWith_iff _ _).1 h
    simp only [sanitizeRelPath]
    set q0 := goTrimSpace (goReplaceSlashes p) with hq0
    have h1 : goTrimLead q0 "/" = q0 := by
      rw [goTrimLead, if_neg ?hpre]
      case hpre => rw [ht]; simp [List.isPrefixOf]
    rw [h1]
    have h2 : goTrimLead q0 "./" = q0 := by
      rw [goTrimLead, if_neg ?hpre2]
      case hpre2 => rw [ht]; simp [List.isPrefixOf]
    rw [h2]
    have hne : ¬ q0 = "" := by
      intro he; rw [he] at ht; simp at ht
    rw [if_neg hne]
    have hr : ¬ q0.data.head? = some '/' := by rw [ht]; simp
    have hsplit : splitSlash q0.data = ".." :: splitSlash t := by rw [ht]; rfl
    obtain ⟨l', hl'⟩ := dotdot_bottom_foldl (splitSlash t) [".."] ⟨[], rfl⟩
    have hfold : (splitSlash q0.data).foldl (cleanStep false) [] = l' ++ [".."] := by
      rw [hsplit, List.foldl_cons]
      have hstep : cleanStep false [] ".." = [".."] := by decide
      rw [hstep, hl']
    have hout : cleanComps false (splitSlash q0.data) = ".." :: l'.reverse := by
      rw [cleanComps, hfold]; simp
    have houtne : ¬ cleanComps false (splitSlash q0.data) = [] := by
      rw [hout]; simp
    have hclean : goClean q0 = String.mk (joinSlash (".." :: l'.reverse)) := by
      rw [goClean_eq_rel q0 hne hr, if_neg houtne, hout]
    rw [if_pos ?hcond]
    case hcond =>
      rw [hclean]
      rcases joinSlash_dotdot_head l'.reverse with hc | hc
      · exact .inr (.inl hc)
      · exact .inr (.inr hc)

/-! ## Claim C1 -/

/-- C1 counterexample: the claim says every absolute path (leading separator)
and every path containing a `..` component is rejected, but `sanitizeRelPath`
strips the leading separator of `"/a"` and accepts it, and lexical cleaning
accepts `"a/../b"` although it contains a `..` component. -/
theorem C1_counterexample :
    sanitizeRelPath "/a" = .ok "a" ∧ sanitizeRelPath "a/../b" = .ok "b" := by
  decide

theorem sanitize_invalid_iff (q : String) :
    sanitizeRelPath q = .error "invalid path" ↔
      (sanitizeNormalize q ≠ "" ∧
        (goClean (sanitizeNormalize q) = "." ∨ goClean (sanitizeNormalize q) = ".." ∨
          goStartsWith (goClean (sanitizeNormalize q)) "../" = true)) := by
  simp only [sanitizeRelPath, sanitizeNormalize]
  by_cases h : goTrimLead (goTrimLead (goTrimSpace (goReplaceSlashes q)) "/") "./" = ""
  · rw [if_pos h]
    simp [h]
  · rw [if_neg h]
    by_cases h2 :
        goClean (goTrimLead (goTrimLead (goTrimSpace (goReplaceSlashes q)) "/") "./") = "." ∨
        goClean (goTrimLead (goTrimLead (goTrimSpace (goReplaceSlashes q)) "/") "./") = ".." ∨
        goStartsWith
          (goClean (goTrimLead (goTrimLead (goTrimSpace (goReplaceSlashes q)) "/") "./"))
          "../" = true
    · rw [if_pos h2]
      simp [h, h2]
    · rw [if_neg h2]
      rw [if_neg (by simp [goVolumeName])]
      simp [h, h2]

/-- C1 (amended): on the Unix build, `sanitizeRelPath` fails for the
invalid-path reason exactly when its normalized input — separators
replaced, whitespace trimmed, one leading `/` and one leading `./`
stripped — is non-empty and lexically cleans to `"."`, to `".."`, or to a
path beginning with a `../` segment; in particular every path whose
trimmed separator-normalized form is `..` or begins with `../` is
rejected, while a single leading separator is stripped, not rejected, and
no volume check applies.  For every path it accepts, `finalAbsPath`
resolves the path under the storage root and succeeds, the result being a
descendant of the root as checked by `isSubpath`.  The storage root is any
absolute path `mkAbs rc` with non-empty well-formed segments. -/
theorem C1_path_resolver (rc : List String) (cwd : String) (h1 : rc ≠ [])
    (h2 : ∀ c ∈ rc, goodComp c) (p : String) :
    (sanitizeRelPath p = .error "invalid path" ↔
      (sanitizeNormalize p ≠ "" ∧
        (goClean (sanitizeNormalize p) = "." ∨ goClean (sanitizeNormalize p) = ".." ∨
          goStartsWith (goClean (sanitizeNormalize p)) "../" = true))) ∧
    (goTrimSpace (goReplaceSlashes p) = ".." ∨
        goStartsWith (goTrimSpace (goReplaceSlashes p)) "../" = true →
      sanitizeRelPath p = .error "invalid path") ∧
    (∀ rel, sanitizeRelPath p = .ok rel →
      finalAbsPath cwd (mkAbs rc) p = .ok (goJoin (mkAbs rc) rel) ∧
        isSubpath (goJoin (mkAbs rc) rel) (mkAbs rc) = true) :=
  ⟨sanitize_invalid_iff p, sanitize_rejects_dotdot_lead p,
    fun rel h => finalAbsPath_ok rc cwd h1 h2 p rel h⟩

/-- C1 witness: the amended theorem evaluated at the storage root `/data`:
the caller path `x/..` (which cleans to `"."`) is rejected as invalid, and
the accepted caller path `x/a.bin` resolves inside the root. -/
theorem C1_path_resolver_witness :
    sanitizeRelPath "x/.." = .error "invalid path" ∧
      (finalAbsPath "/" (mkAbs ["data"]) "x/a.bin" = .ok (goJoin (mkAbs ["data"]) "x/a.bin") ∧
        isSubpath (goJoin (mkAbs ["data"]) "x/a.bin") (mkAbs ["data"]) = true) :=
  ⟨(C1_path_resolver ["data"] "/" (by decide) (by decide) "x/..").1.mpr (by decide),
    (C1_path_resolver ["data"] "/" (by decide) (by decide) "x/a.bin").2.2 "x/a.bin" (by decide)⟩

/-! ## Lemmas: the chunk handler, branch by branch -/

theorem handleChunk_offset_neg (cfg : GoCfg) (st : SessState) (offset chunkLen : Int)
    (h : offset < 0) :
    handleChunk cfg st offset chunkLen = (.error (.badRequest "invalid offset"), st) := by
  rw [handleChunk, if_pos h]

theorem handleChunk_len_nonpos (cfg : GoCfg) (st : SessState) (offset chunkLen : Int)
    (h1 : ¬ offset < 0) (h2 : chunkLen ≤ 0) :
    handleChunk cfg st offset chunkLen =
      (.error (.badRequest "missing/invalid Content-Length"), st) := by
  rw [handleChunk, if_neg h1, if_pos h2]

theorem handleChunk_len_large (cfg : GoCfg) (st : SessState) (offset chunkLen : Int)
    (h1 : ¬ offset < 0) (h2 : ¬ chunkLen ≤ 0) (h3 : chunkLen > cfg.maxChunkBytes) :
    handleChunk cfg st offset chunkLen = (.error .tooLarge, st) := by
  rw [handleChunk, if_neg h1, if_neg h2, if_pos h3]

theorem handleChunk_notFound (cfg : GoCfg) (st : SessState) (offset chunkLen : Int)
    (h1 : ¬ offset < 0) (h2 : ¬ chunkLen ≤ 0) (h3 : ¬ chunkLen > cfg.maxChunkBytes)
    (hm : st.meta = none) :
    handleChunk cfg st offset chunkLen = (.error .notFound, st) := by
  rw [handleChunk, if_neg h1, if_neg h2, if_neg h3, hm]

theorem handleChunk_completed (cfg : GoCfg) (st : SessState) (offset chunkLen : Int)
    (m : UploadMeta) (h1 : ¬ offset < 0) (h2 : ¬ chunkLen ≤ 0)
    (h3 : ¬ chunkLen > cfg.maxChunkBytes) (hm : st.meta = some m)
    (hc : m.completed = true) :
    handleChunk cfg st offset chunkLen = (.error .conflict, st) := by
  rw [handleChunk, if_neg h1, if_neg h2, if_neg h3, hm]
  simp only [hc, if_true]

theorem handleChunk_range (cfg : GoCfg) (st : SessState) (offset chunkLen : Int)
    (m : UploadMeta) (h1 : ¬ offset < 0) (h2 : ¬ chunkLen ≤ 0)
    (h3 : ¬ chunkLen > cfg.maxChunkBytes) (hm : st.meta = some m)
    (hc : m.completed = false) (h4 : offset + chunkLen > m.totalSize) :
    handleChunk cfg st offset chunkLen = (.error (.badRequest "chunk out of range"), st) := by
  rw [handleChunk, if_neg h1, if_neg h2, if_neg h3, hm]
  simp only [hc, Bool.false_eq_true, if_false, if_pos h4]

theorem handleChunk_noPart (cfg : GoCfg) (st : SessState) (offset chunkLen : Int)
    (m : UploadMeta) (h1 : ¬ offset < 0) (h2 : ¬ chunkLen ≤ 0)
    (h3 : ¬ chunkLen > cfg.maxChunkBytes) (hm : st.meta = some m)
    (hc : m.completed = false) (h4 : ¬ offset + chunkLen > m.totalSize)
    (hw : st.part = none) :
    handleChunk cfg st offset chunkLen = (.error .internalErr, st) := by
  rw [handleChunk, if_neg h1, if_neg h2, if_neg h3, hm]
  simp only [hc, Bool.false_eq_true, if_false, if_neg h4, hw]

theorem handleChunk_accepted (cfg : GoCfg) (st : SessState) (offset chunkLen : Int)
    (m : UploadMeta) (w : List (Int × Int)) (h1 : ¬ offset < 0) (h2 : ¬ chunkLen ≤ 0)
    (h3 : ¬ chunkLen > cfg.maxChunkBytes) (hm : st.meta = some m)
    (hc : m.completed = false) (h4 : ¬ offset + chunkLen > m.totalSize)
    (hw : st.part = some w) :
    handleChunk cfg st offset chunkLen =
      (.ok (maxInt64 (offset + chunkLen) m.uploadedSize),
        if maxInt64 (offset + chunkLen) m.uploadedSize = m.totalSize ∨
            maxInt64 (offset + chunkLen) m.uploadedSize - st.lastSaved.getD 0 ≥
              metaSaveInterval cfg then
          { meta := some { m with uploadedSize := maxInt64 (offset + chunkLen) m.uploadedSize },
            part := some (w ++ [(offset, chunkLen)]),
            lastSaved := some (maxInt64 (offset + chunkLen) m.uploadedSize) }
        else
          { meta := some m, part := some (w ++ [(offset, chunkLen)]),
            lastSaved := some (st.lastSaved.getD 0) }) := by
  rw [handleChunk, if_neg h1, if_neg h2, if_neg h3, hm]
  simp only [hc, Bool.false_eq_true, if_false, if_neg h4, hw, maxInt64]
  by_cases hp : (if offset + chunkLen > m.uploadedSize then offset + chunkLen
      else m.uploadedSize) = m.totalSize ∨
      (if offset + chunkLen > m.uploadedSize then offset + chunkLen
      else m.uploadedSize) - st.lastSaved.getD 0 ≥ metaSaveInterval cfg
  · rw [if_pos hp, if_pos hp]
  · rw [if_neg hp, if_neg hp]

/-! ## Lemmas: the complete and cancel handlers, branch by branch -/

theorem handleComplete_notFound (cfg : GoCfg) (cwd rootAbs : String) (st : SessState)
    (hm : st.meta = none) :
    handleComplete cfg cwd rootAbs st = (.error .notFound, st) := by
  rw [handleComplete, hm]

theorem handleComplete_completed (cfg : GoCfg) (cwd rootAbs : String) (st : SessState)
    (m : UploadMeta) (hm : st.meta = some m) (hc : m.completed = true) :
    handleComplete cfg cwd rootAbs st =
      (.ok ((finalAbsPath cwd rootAbs m.relPath).toOption.getD ""), st) := by
  rw [handleComplete, hm]
  simp only [hc, if_true]

theorem handleComplete_conflict (cfg : GoCfg) (cwd rootAbs : String) (st : SessState)
    (m : UploadMeta) (hm : st.meta = some m) (hc : m.completed = false)
    (hu : m.uploadedSize < m.totalSize) :
    handleComplete cfg cwd rootAbs st = (.error .conflict, st) := by
  rw [handleComplete, hm]
  simp only [hc, Bool.false_eq_true, if_false, if_pos hu]

theorem handleComplete_invalidPath (cfg : GoCfg) (cwd rootAbs : String) (st : SessState)
    (m : UploadMeta) (e : String) (hm : st.meta = some m) (hc : m.completed = false)
    (hu : ¬ m.uploadedSize < m.totalSize)
    (hf : finalAbsPath cwd rootAbs m.relPath = .error e) :
    handleComplete cfg cwd rootAbs st = (.error (.badRequest "invalid path"), st) := by
  rw [handleComplete, hm]
  simp only [hc, Bool.false_eq_true, if_false, if_neg hu, hf]

theorem handleComplete_noPart (cfg : GoCfg) (cwd rootAbs : String) (st : SessState)
    (m : UploadMeta) (abs : String) (hm : st.meta = some m) (hc : m.completed = false)
    (hu : ¬ m.uploadedSize < m.totalSize)
    (hf : finalAbsPath cwd rootAbs m.relPath = .ok abs) (hw : st.part = none) :
    handleComplete cfg cwd rootAbs st = (.error .internalErr, st) := by
  rw [handleComplete, hm]
  simp only [hc, Bool.false_eq_true, if_false, if_neg hu, hf, hw]

theorem handleComplete_success (cfg : GoCfg) (cwd rootAbs : String) (st : SessState)
    (m : UploadMeta) (abs : String) (w : List (Int × Int)) (hm : st.meta = some m)
    (hc : m.completed = false) (hu : ¬ m.uploadedSize < m.totalSize)
    (hf : finalAbsPath cwd rootAbs m.relPath = .ok abs) (hw : st.part = some w) :
    handleComplete cfg cwd rootAbs st =
      (.ok abs,
       { meta := some { m with completed := true }, part := none,
         lastSaved := st.lastSaved }) := by
  rw [handleComplete, hm]
  simp only [hc, Bool.false_eq_true, if_false, if_neg hu, hf, hw]

theorem handleCancel_notFound (st : SessState) (hm : st.meta = none) :
    handleCancel st = (.error .notFound, st) := by
  rw [handleCancel, hm]

theorem handleCancel_conflict (st : SessState) (m : UploadMeta) (hm : st.meta = some m)
    (hc : m.completed = true) :
    handleCancel st = (.error .conflict, st) := by
  rw [handleCancel, hm]
  simp only [hc, if_true]

theorem handleCancel_success (st : SessState) (m : UploadMeta) (hm : st.meta = some m)
    (hc : m.completed = false) :
    handleCancel st = (.ok (), emptySess) := by
  rw [handleCancel, hm]
  simp only [hc, Bool.false_eq_true, if_false]

/-! ## Lemmas: the session invariant -/

set_option maxHeartbeats 1600000 in
theorem SessInv_init (cfg : GoCfg) (uploadID : String) (now : Int) (req : InitReq)
    (meta : UploadMeta) (st : SessState)
    (h : handleInit cfg uploadID now req = .ok (meta, st)) : SessInv st := by
  simp only [handleInit] at h
  by_cases h1 : req.totalSize ≤ 0
  · rw [if_pos h1] at h; simp at h
  · rw [if_neg h1] at h
    by_cases h2 : 0 < cfg.maxFileBytes ∧ req.totalSize > cfg.maxFileBytes
    · rw [if_pos h2] at h; simp at h
    · rw [if_neg h2] at h
      by_cases h3 : req.chunkSize ≤ 0 ∨ req.chunkSize > cfg.maxChunkBytes
      · rw [if_pos h3] at h; simp at h
      · rw [if_neg h3] at h
        split at h
        · simp at h
        · rw [Except.ok.injEq, Prod.mk.injEq] at h
          obtain ⟨hm, hst⟩ := h
          intro m hm'
          rw [← hst] at hm'
          simp only [Option.some.injEq] at hm'
          rw [← hm']
          refine ⟨by simp, by simp; omega, by simp⟩

set_option maxHeartbeats 1600000 in
theorem SessInv_chunk (cfg : GoCfg) (st : SessState) (offset chunkLen : Int)
    (hinv : SessInv st) : SessInv (handleChunk cfg st offset chunkLen).2 := by
  by_cases h1 : offset < 0
  · rw [handleChunk_offset_neg cfg st offset chunkLen h1]; exact hinv
  · by_cases h2 : chunkLen ≤ 0
    · rw [handleChunk_len_nonpos cfg st offset chunkLen h1 h2]; exact hinv
    · by_cases h3 : chunkLen > cfg.maxChunkBytes
      · rw [handleChunk_len_large cfg st offset chunkLen h1 h2 h3]; exact hinv
      · cases hm : st.meta with
        | none => rw [handleChunk_notFound cfg st offset chunkLen h1 h2 h3 hm]; exact hinv
        | some m =>
          cases hc : m.completed with
          | true =>
            rw [handleChunk_completed cfg st offset chunkLen m h1 h2 h3 hm hc]; exact hinv
          | false =>
            by_cases h4 : offset + chunkLen > m.totalSize
            · rw [handleChunk_range cfg st offset chunkLen m h1 h2 h3 hm hc h4]; exact hinv
            · cases hw : st.part with
              | none =>
                rw [handleChunk_noPart cfg st offset chunkLen m h1 h2 h3 hm hc h4 hw]
                exact hinv
              | some w =>
                rw [handleChunk_accepted cfg st offset chunkLen m w h1 h2 h3 hm hc h4 hw]
                obtain ⟨hu0, hut, _⟩ := hinv m hm
                dsimp only
                split
                · intro m' hm'
                  simp only [Option.some.injEq] at hm'
                  rw [← hm']
                  refine ⟨?_, ?_, ?_⟩
                  · simp only [maxInt64]; split <;> omega
                  · simp only [maxInt64]; split <;> omega
                  · simp [hc]
                · intro m' hm'
                  simp only [Option.some.injEq] at hm'
                  rw [← hm']
                  exact hinv m hm

set_option maxHeartbeats 1600000 in
theorem SessInv_complete (cfg : GoCfg) (cwd rootAbs : String) (st : SessState)
    (hinv : SessInv st) : SessInv (handleComplete cfg cwd rootAbs st).2 := by
  cases hm : st.meta with
  | none => rw [handleComplete_notFound cfg cwd rootAbs st hm]; exact hinv
  | some m =>
    cases hc : m.completed with
    | true => rw [handleComplete_completed cfg cwd rootAbs st m hm hc]; exact hinv
    | false =>
      by_cases hu : m.uploadedSize < m.totalSize
      · rw [handleComplete_conflict cfg cwd rootAbs st m hm hc hu]; exact hinv
      · cases hf : finalAbsPath cwd rootAbs m.relPath with
        | error e =>
          rw [handleComplete_invalidPath cfg cwd rootAbs st m e hm hc hu hf]; exact hinv
        | ok abs =>
          cases hw : st.part with
          | none => rw [handleComplete_noPart cfg cwd rootAbs st m abs hm hc hu hf hw]; exact hinv
          | some w =>
            rw [handleComplete_success cfg cwd rootAbs st m abs w hm hc hu hf hw]
            dsimp only
            intro m' hm'
            simp only [Option.some.injEq] at hm'
            rw [← hm']
            obtain ⟨hu0, hut, _⟩ := hinv m hm
            refine ⟨by simpa using hu0, by simpa using hut, fun _ => by simp; omega⟩

theorem SessInv_cancel (st : SessState) (hinv : SessInv st) : SessInv (handleCancel st).2 := by
  cases hm : st.meta with
  | none => rw [handleCancel_notFound st hm]; exact hinv
  | some m =>
    cases hc : m.completed with
    | true => rw [handleCancel_conflict st m hm hc]; exact hinv
    | false =>
      rw [handleCancel_success st m hm hc]
      intro m' hm'
      simp [emptySess] at hm'

/-! ## Claim C2 -/

/-- C2: every session state reachable by any sequence of init, chunk,
complete, and cancel operations satisfies `0 ≤ uploaded_size ≤ total_size`,
and `completed = true` implies `uploaded_size = total_size`; each operation
preserves the invariant. -/
theorem C2_session_invariant (cfg : GoCfg) (cwd rootAbs : String) (st : SessState)
    (h : Reach cfg cwd rootAbs st) : SessInv st := by
  induction h with
  | init uploadID now req meta st h => exact SessInv_init cfg uploadID now req meta st h
  | chunk st offset chunkLen h ih => exact SessInv_chunk cfg st offset chunkLen ih
  | complete st h ih => exact SessInv_complete cfg cwd rootAbs st ih
  | cancel st h ih => exact SessInv_cancel st ih

/-- C2 witness: the invariant holds for the state created by a concrete
successful init. -/
theorem C2_session_invariant_witness : SessInv stT :=
  C2_session_invariant cfgT "/" "/data" stT
    (Reach.init "u" 0 { filename := "a.bin", path := "x/a.bin", totalSize := 10, chunkSize := 5 }
      metaT stT (by decide))

theorem handleChunk_state_unchanged (cfg : GoCfg) (st : SessState) (offset chunkLen : Int)
    (e : ApiErr) (st' : SessState)
    (h : handleChunk cfg st offset chunkLen = (.error e, st')) : st' = st := by
  by_cases h1 : offset < 0
  · rw [handleChunk_offset_neg cfg st offset chunkLen h1] at h
    exact (congrArg Prod.snd h).symm
  · by_cases h2 : chunkLen ≤ 0
    · rw [handleChunk_len_nonpos cfg st offset chunkLen h1 h2] at h
      exact (congrArg Prod.snd h).symm
    · by_cases h3 : chunkLen > cfg.maxChunkBytes
      · rw [handleChunk_len_large cfg st offset chunkLen h1 h2 h3] at h
        exact (congrArg Prod.snd h).symm
      · cases hm : st.meta with
        | none =>
          rw [handleChunk_notFound cfg st offset chunkLen h1 h2 h3 hm] at h
          exact (congrArg Prod.snd h).symm
        | some m =>
          cases hc : m.completed with
          | true =>
            rw [handleChunk_completed cfg st offset chunkLen m h1 h2 h3 hm hc] at h
            exact (congrArg Prod.snd h).symm
          | false =>
            by_cases h4 : offset + chunkLen > m.totalSize
            · rw [handleChunk_range cfg st offset chunkLen m h1 h2 h3 hm hc h4] at h
              exact (congrArg Prod.snd h).symm
            · cases hw : st.part with
              | none =>
                rw [handleChunk_noPart cfg st offset chunkLen m h1 h2 h3 hm hc h4 hw] at h
                exact (congrArg Prod.snd h).symm
              | some w =>
                rw [handleChunk_accepted cfg st offset chunkLen m w h1 h2 h3 hm hc h4 hw] at h
                have := congrArg Prod.fst h
                simp at this

/-! ## Claim C4 -/

theorem storedUploaded_chunk_mono (cfg : GoCfg) (st : SessState) (offset chunkLen : Int) :
    storedUploaded st ≤ storedUploaded (handleChunk cfg st offset chunkLen).2 := by
  rcases hout : handleChunk cfg st offset chunkLen with ⟨r, st'⟩
  cases r with
  | error e =>
    have : st' = st := handleChunk_state_unchanged cfg st offset chunkLen e st' hout
    simp [this]
  | ok v =>
    by_cases h1 : offset < 0
    · rw [handleChunk_offset_neg cfg st offset chunkLen h1] at hout; simp at hout
    · by_cases h2 : chunkLen ≤ 0
      · rw [handleChunk_len_nonpos cfg st offset chunkLen h1 h2] at hout; simp at hout
      · by_cases h3 : chunkLen > cfg.maxChunkBytes
        · rw [handleChunk_len_large cfg st offset chunkLen h1 h2 h3] at hout; simp at hout
        · cases hm : st.meta with
          | none =>
            rw [handleChunk_notFound cfg st offset chunkLen h1 h2 h3 hm] at hout
            simp at hout
          | some m =>
            cases hc : m.completed with
            | true =>
              rw [handleChunk_completed cfg st offset chunkLen m h1 h2 h3 hm hc] at hout
              simp at hout
            | false =>
              by_cases h4 : offset + chunkLen > m.totalSize
              · rw [handleChunk_range cfg st offset chunkLen m h1 h2 h3 hm hc h4] at hout
                simp at hout
              · cases hw : st.part with
                | none =>
                  rw [handleChunk_noPart cfg st offset chunkLen m h1 h2 h3 hm hc h4 hw] at hout
                  simp at hout
                | some w =>
                  rw [handleChunk_accepted cfg st offset chunkLen m w h1 h2 h3 hm hc h4 hw]
                    at hout
                  have hst' := congrArg Prod.snd hout
                  dsimp only at hst'
                  rw [← hst']
                  split
                  · simp [storedUploaded, hm, maxInt64]
                    split <;> omega
                  · simp [storedUploaded, hm]

theorem storedUploaded_applyChunks_mono (cfg : GoCfg) (reqs : List (Int × Int)) :
    ∀ st, storedUploaded st ≤ storedUploaded (applyChunks cfg st reqs) := by
  induction reqs with
  | nil => intro st; simp [applyChunks]
  | cons r rest ih =>
    intro st
    obtain ⟨o, l⟩ := r
    have h1 := storedUploaded_chunk_mono cfg st o l
    have h2 := ih (handleChunk cfg st o l).2
    calc storedUploaded st ≤ storedUploaded (handleChunk cfg st o l).2 := h1
      _ ≤ storedUploaded (applyChunks cfg (handleChunk cfg st o l).2 rest) := h2
      _ = storedUploaded (applyChunks cfg st ((o, l) :: rest)) := by rw [applyChunks]

/-- C5 counterexample: a chunk write accepted below the persistence
threshold reports `10` but leaves the session's stored `uploaded_size` at
`0`, so the new uploaded size does not equal
`max(previous uploaded_size, offset+length)`. -/
theorem C5_counterexample :
    (handleChunk cfgT stC 0 10).1 = .ok 10 ∧
      storedUploaded stC = 0 ∧
      storedUploaded (handleChunk cfgT stC 0 10).2 = 0 ∧
      maxInt64 (0 + 10) (storedUploaded stC) = 10 := by
  decide

/-- C5 (amended): an accepted chunk write responds with
`max(stored uploaded_size, offset+length)`; the stored uploaded size is
either updated to exactly that value (when the throttle persists) or left
unchanged; and the stored uploaded size is monotonically non-decreasing
across any sequence of chunk requests, regardless of offset order. -/
theorem C5_uploaded_size (cfg : GoCfg) (st : SessState) (offset chunkLen : Int)
    (m : UploadMeta) (w : List (Int × Int)) (hm : st.meta = some m) (hw : st.part = some w)
    (hc : m.completed = false) (h1 : ¬ offset < 0) (h2 : ¬ chunkLen ≤ 0)
    (h3 : ¬ chunkLen > cfg.maxChunkBytes) (h4 : ¬ offset + chunkLen > m.totalSize) :
    (handleChunk cfg st offset chunkLen).1 =
        .ok (maxInt64 (offset + chunkLen) m.uploadedSize) ∧
      ((handleChunk cfg st offset chunkLen).2.meta =
          some { m with uploadedSize := maxInt64 (offset + chunkLen) m.uploadedSize } ∨
        (handleChunk cfg st offset chunkLen).2.meta = some m) ∧
      storedUploaded st ≤ storedUploaded (handleChunk cfg st offset chunkLen).2 ∧
      (∀ reqs, storedUploaded st ≤ storedUploaded (applyChunks cfg st reqs)) := by
  rw [handleChunk_accepted cfg st offset chunkLen m w h1 h2 h3 hm hc h4 hw]
  refine ⟨?_, ?_, ?_, fun reqs => storedUploaded_applyChunks_mono cfg reqs st⟩
  · rfl
  · dsimp only
    split
    · exact .inl rfl
    · exact .inr rfl
  · rw [← handleChunk_accepted cfg st offset chunkLen m w h1 h2 h3 hm hc h4 hw]
    exact storedUploaded_chunk_mono cfg st offset chunkLen

/-- C5 witness: the amended theorem evaluated at a concrete accepted
chunk. -/
theorem C5_uploaded_size_witness :
    (handleChunk cfgT stT 0 5).1 = .ok (maxInt64 (0 + 5) metaT.uploadedSize) ∧
      ((handleChunk cfgT stT 0 5).2.meta =
          some { metaT with uploadedSize := maxInt64 (0 + 5) metaT.uploadedSize } ∨
        (handleChunk cfgT stT 0 5).2.meta = some metaT) ∧
      storedUploaded stT ≤ storedUploaded (handleChunk cfgT stT 0 5).2 ∧
      (∀ reqs, storedUploaded stT ≤ storedUploaded (applyChunks cfgT stT reqs)) :=
  C5_uploaded_size cfgT stT 0 5 metaT [] rfl rfl rfl (by decide) (by decide) (by decide)
    (by decide)

/-- C6: after a successful chunk write the metadata is flushed to the
session store exactly when the new uploaded size equals the total size or
has advanced by at least `max(64 MiB, max_chunk_bytes/2)` over the last
persisted value (`lastSaved`, `0` before the first flush); otherwise the
on-disk metadata is left untouched. -/
theorem C6_persistence_throttle (cfg : GoCfg) (st : SessState) (offset chunkLen : Int)
    (m : UploadMeta) (w : List (Int × Int)) (hm : st.meta = some m) (hw : st.part = some w)
    (hc : m.completed = false) (h1 : ¬ offset < 0) (h2 : ¬ chunkLen ≤ 0)
    (h3 : ¬ chunkLen > cfg.maxChunkBytes) (h4 : ¬ offset + chunkLen > m.totalSize) :
    metaSaveInterval cfg = maxInt64 (64 * 1024 * 1024) (cfg.maxChunkBytes / 2) ∧
    (maxInt64 (offset + chunkLen) m.uploadedSize = m.totalSize ∨
        maxInt64 (offset + chunkLen) m.uploadedSize - st.lastSaved.getD 0 ≥
          metaSaveInterval cfg →
      (handleChunk cfg st offset chunkLen).2 =
        { meta := some { m with
            uploadedSize := maxInt64 (offset + chunkLen) m.uploadedSize },
          part := some (w ++ [(offset, chunkLen)]),
          lastSaved := some (maxInt64 (offset + chunkLen) m.uploadedSize) }) ∧
    (¬ (maxInt64 (offset + chunkLen) m.uploadedSize = m.totalSize ∨
        maxInt64 (offset + chunkLen) m.uploadedSize - st.lastSaved.getD 0 ≥
          metaSaveInterval cfg) →
      (handleChunk cfg st offset chunkLen).2 =
        { meta := some m, part := some (w ++ [(offset, chunkLen)]),
          lastSaved := some (st.lastSaved.getD 0) }) := by
  refine ⟨rfl, ?_, ?_⟩
  · intro hp
    rw [handleChunk_accepted cfg st offset chunkLen m w h1 h2 h3 hm hc h4 hw]
    dsimp only
    rw [if_pos hp]
  · intro hp
    rw [handleChunk_accepted cfg st offset chunkLen m w h1 h2 h3 hm hc h4 hw]
    dsimp only
    rw [if_neg hp]

/-- C6 witness: the flushing branch of the throttle at a concrete final
chunk. -/
theorem C6_persistence_throttle_witness :
    (handleChunk cfgT stT 0 10).2 =
      { meta := some { metaT with
          uploadedSize := maxInt64 (0 + 10) metaT.uploadedSize },
        part := some ([] ++ [(0, 10)]),
        lastSaved := some (maxInt64 (0 + 10) metaT.uploadedSize) } :=
  (C6_persistence_throttle cfgT stT 0 10 metaT [] rfl rfl rfl (by decide) (by decide)
    (by decide) (by decide)).2.1 (by decide)

/-! ## Claim C3 -/

/-- C3 counterexample: `init` accepts the path `"//"` and stores the
relative path `"/"`, a session that uploads fully (`uploaded_size =
total_size = 1`, not completed) and whose `complete` nevertheless fails:
the stored path does not survive re-sanitization (`finalAbsPath` reports
an empty path), so `complete` answers InvalidPath instead of succeeding. -/
theorem C3_counterexample :
    handleInit cfgT "u" 0 { filename := "a", path := "//", totalSize := 1, chunkSize := 1 } =
      .ok (metaSlash, stSlash0) ∧
    handleChunk cfgT stSlash0 0 1 = (.ok 1, stSlash1) ∧
    stSlash1.meta = some { metaSlash with uploadedSize := 1 } ∧
    ({ metaSlash with uploadedSize := 1 } : UploadMeta).uploadedSize =
      ({ metaSlash with uploadedSize := 1 } : UploadMeta).totalSize ∧
    ({ metaSlash with uploadedSize := 1 } : UploadMeta).completed = false ∧
    handleComplete cfgT "/" "/data" stSlash1 =
      (.error (.badRequest "invalid path"), stSlash1) := by
  decide

/-- C3 (amended): for a session whose metadata exists, `complete` fails
with Conflict whenever `uploaded_size < total_size`; once `uploaded_size =
total_size` it succeeds — provided the stored relative path re-sanitizes
(true for all but degenerate stored paths such as `"/"`) — marking the
session completed, and every later `complete` succeeds idempotently with
the same final absolute path, which lies inside the storage root. -/
theorem C3_complete (cfg : GoCfg) (rc : List String) (cwd : String) (h1 : rc ≠ [])
    (h2 : ∀ c ∈ rc, goodComp c) (st : SessState) (m : UploadMeta)
    (hm : st.meta = some m) :
    (m.completed = false → m.uploadedSize < m.totalSize →
      handleComplete cfg cwd (mkAbs rc) st = (.error .conflict, st)) ∧
    (∀ w rel, m.completed = false → m.uploadedSize = m.totalSize →
      st.part = some w → sanitizeRelPath m.relPath = .ok rel →
      ∃ abs st',
        handleComplete cfg cwd (mkAbs rc) st = (.ok abs, st') ∧
        st'.meta = some { m with completed := true } ∧
        handleComplete cfg cwd (mkAbs rc) st' = (.ok abs, st') ∧
        isSubpath abs (mkAbs rc) = true) ∧
    (∀ abs, m.completed = true → finalAbsPath cwd (mkAbs rc) m.relPath = .ok abs →
      handleComplete cfg cwd (mkAbs rc) st = (.ok abs, st)) := by
  refine ⟨?_, ?_, ?_⟩
  · intro hc hu
    exact handleComplete_conflict cfg cwd (mkAbs rc) st m hm hc hu
  · intro w rel hc hu hw hsan
    obtain ⟨hfa, hsub⟩ := finalAbsPath_ok rc cwd h1 h2 m.relPath rel hsan
    refine ⟨goJoin (mkAbs rc) rel,
      { meta := some { m with completed := true }, part := none, lastSaved := st.lastSaved },
      ?_, rfl, ?_, hsub⟩
    · exact handleComplete_success cfg cwd (mkAbs rc) st m _ w hm hc (by omega) hfa hw
    · rw [handleComplete_completed cfg cwd (mkAbs rc)
        { meta := some { m with completed := true }, part := none, lastSaved := st.lastSaved }
        { m with completed := true } rfl rfl]
      have hrel : ({ m with completed := true } : UploadMeta).relPath = m.relPath := rfl
      rw [hrel, hfa]
      rfl
  · intro abs hc hf
    rw [handleComplete_completed cfg cwd (mkAbs rc) st m hm hc, hf]
    rfl

/-- C3 witness: the amended theorem's success-and-idempotence branch at a
concrete fully-uploaded session. -/
theorem C3_complete_witness :
    ∃ abs st',
      handleComplete cfgT "/" (mkAbs ["data"]) stFull = (.ok abs, st') ∧
      st'.meta = some { { metaT with uploadedSize := 10 } with completed := true } ∧
      handleComplete cfgT "/" (mkAbs ["data"]) st' = (.ok abs, st') ∧
      isSubpath abs (mkAbs ["data"]) = true :=
  (C3_complete cfgT ["data"] "/" (by decide) (by decide) stFull
    { metaT with uploadedSize := 10 } rfl).2.1 [(0, 10)] "x/a.bin" rfl rfl rfl (by decide)

/-! ## Claim C7 -/

/-- C7 counterexample: after cancelling a session, a chunk request for that
id with a malformed offset observes InvalidArgument, not NotFound — the
parameter checks run before the session lookup, exactly as they would for
an id that never existed. -/
theorem C7_counterexample :
    handleCancel stT = (.ok (), emptySess) ∧
      (handleChunk cfgT emptySess (-1) 1).1 = .error (.badRequest "invalid offset") ∧
      (handleChunk cfgT emptySess (-1) 1).1 ≠ .error .notFound := by
  decide

/-- C7 (amended): cancelling a non-completed session removes both the temp
part file and the metadata file, leaving exactly the state of an id that
never existed; a subsequent status observes NotFound, and every subsequent
chunk, complete or cancel on that id observes NotFound whenever it passes
its parameter validation.  Cancel fails with Conflict on a completed
session and with NotFound when the metadata is absent. -/
theorem C7_cancel (st : SessState) (m : UploadMeta) :
    (st.meta = some m → m.completed = false →
      handleCancel st = (.ok (), emptySess) ∧
      emptySess.meta = none ∧ emptySess.part = none ∧
      handleStatus emptySess = .error .notFound ∧
      (∀ cfg offset chunkLen, ¬ offset < 0 → ¬ chunkLen ≤ 0 →
        ¬ chunkLen > GoCfg.maxChunkBytes cfg →
        handleChunk cfg emptySess offset chunkLen = (.error .notFound, emptySess)) ∧
      (∀ cfg cwd rootAbs,
        handleComplete cfg cwd rootAbs emptySess = (.error .notFound, emptySess)) ∧
      handleCancel emptySess = (.error .notFound, emptySess)) ∧
    (st.meta = some m → m.completed = true → handleCancel st = (.error .conflict, st)) ∧
    (st.meta = none → handleCancel st = (.error .notFound, st)) := by
  refine ⟨fun hm hc => ⟨handleCancel_success st m hm hc, rfl, rfl, rfl, ?_, ?_, ?_⟩,
    fun hm hc => handleCancel_conflict st m hm hc,
    fun hm => handleCancel_notFound st hm⟩
  · intro cfg offset chunkLen h1 h2 h3
    exact handleChunk_notFound cfg emptySess offset chunkLen h1 h2 h3 rfl
  · intro cfg cwd rootAbs
    exact handleComplete_notFound cfg cwd rootAbs emptySess rfl
  · exact handleCancel_notFound emptySess rfl

/-- C7 witness: cancel of a concrete live session and the NotFound status
that follows. -/
theorem C7_cancel_witness :
    handleCancel stT = (.ok (), emptySess) ∧ handleStatus emptySess = .error .notFound := by
  have h := (C7_cancel stT metaT).1 rfl rfl
  exact ⟨h.1, h.2.2.2.1⟩

/-! ## Claim C9 -/

theorem sanitize_empty_iff (q : String) :
    sanitizeRelPath q = .error "empty path" ↔ sanitizeNormalize q = "" := by
  simp only [sanitizeRelPath, sanitizeNormalize]
  by_cases h : goTrimLead (goTrimLead (goTrimSpace (goReplaceSlashes q)) "/") "./" = ""
  · rw [if_pos h]
    simp [h]
  · rw [if_neg h]
    constructor
    · intro hcon
      split at hcon
      · simp at hcon
      · split at hcon
        · simp at hcon
        · simp at hcon
    · intro hcon
      exact absurd hcon h

set_option maxHeartbeats 1600000 in
theorem handleInit_emptyPath (cfg : GoCfg) (uploadID : String) (now : Int) (req : InitReq)
    (e : String) (h1 : ¬ req.totalSize ≤ 0)
    (h2 : ¬ (0 < cfg.maxFileBytes ∧ req.totalSize > cfg.maxFileBytes))
    (h3 : ¬ (req.chunkSize ≤ 0 ∨ req.chunkSize > cfg.maxChunkBytes))
    (hs : sanitizeRelPath (substPath req.filename req.path) = .error e) :
    handleInit cfg uploadID now req = .error (.badRequest "invalid path") := by
  simp only [handleInit]
  rw [if_neg h1, if_neg h2, if_neg h3]
  have hs' : sanitizeRelPath
      (if goTrimSpace req.path = "" then goTrimSpace req.filename
       else goTrimSpace req.path) = .error e := hs
  rw [hs']

set_option maxHeartbeats 1600000 in
theorem handleInit_relPath (cfg : GoCfg) (uploadID : String) (now : Int) (req : InitReq)
    (meta : UploadMeta) (st : SessState)
    (h : handleInit cfg uploadID now req = .ok (meta, st)) :
    sanitizeRelPath (substPath req.filename req.path) = .ok meta.relPath ∧
      meta.filename = substFilename req.filename req.path := by
  simp only [handleInit] at h
  by_cases h1 : req.totalSize ≤ 0
  · rw [if_pos h1] at h; simp at h
  · rw [if_neg h1] at h
    by_cases h2 : 0 < cfg.maxFileBytes ∧ req.totalSize > cfg.maxFileBytes
    · rw [if_pos h2] at h; simp at h
    · rw [if_neg h2] at h
      by_cases h3 : req.chunkSize ≤ 0 ∨ req.chunkSize > cfg.maxChunkBytes
      · rw [if_pos h3] at h; simp at h
      · rw [if_neg h3] at h
        split at h
        · simp at h
        · rename_i rel hs
          rw [Except.ok.injEq, Prod.mk.injEq] at h
          obtain ⟨hm, hst⟩ := h
          constructor
          · rw [← hm]
            exact hs
          · rw [← hm]
            rfl

/-- C9 counterexample: with a non-empty filename `"a"` and path `"/"`, the
substituted path is `"/"`, whose sanitization fails for the empty-path
reason (the leading separator is stripped and nothing remains), so init
fails with InvalidPath although the two fields are not both empty or
whitespace. -/
theorem C9_counterexample :
    goTrimSpace "a" ≠ "" ∧
      sanitizeRelPath (substPath "a" "/") = .error "empty path" ∧
      handleInit cfgT "u" 0 { filename := "a", path := "/", totalSize := 1, chunkSize := 1 } =
        .error (.badRequest "invalid path") := by
  decide

/-- C9 (amended): in init the trimmed empty path field is replaced by the
trimmed filename and the trimmed empty filename by the base name of the
substituted path; with valid sizes, init fails for the empty-path reason
exactly when the substituted path normalizes (separator replacement, trim,
strip of one leading `/` and `./`) to the empty string — in particular,
but not only, when both fields are empty or whitespace — and on success
the stored `rel_path` is the sanitized substituted path and the stored
filename the substituted filename. -/
theorem C9_init_substitution (cfg : GoCfg) (uploadID : String) (now : Int) (req : InitReq)
    (h1 : ¬ req.totalSize ≤ 0)
    (h2 : ¬ (0 < cfg.maxFileBytes ∧ req.totalSize > cfg.maxFileBytes))
    (h3 : ¬ (req.chunkSize ≤ 0 ∨ req.chunkSize > cfg.maxChunkBytes)) :
    (sanitizeRelPath (substPath req.filename req.path) = .error "empty path" ↔
      sanitizeNormalize (substPath req.filename req.path) = "") ∧
    (sanitizeRelPath (substPath req.filename req.path) = .error "empty path" →
      handleInit cfg uploadID now req = .error (.badRequest "invalid path")) ∧
    (∀ meta st, handleInit cfg uploadID now req = .ok (meta, st) →
      sanitizeRelPath (substPath req.filename req.path) = .ok meta.relPath ∧
        meta.filename = substFilename req.filename req.path) ∧
    (goTrimSpace req.path = "" → substPath req.filename req.path = goTrimSpace req.filename) ∧
    (goTrimSpace req.filename = "" →
      substFilename req.filename req.path = goBase (substPath req.filename req.path)) := by
  refine ⟨sanitize_empty_iff (substPath req.filename req.path),
    fun hs => handleInit_emptyPath cfg uploadID now req "empty path" h1 h2 h3 hs,
    fun meta st h => handleInit_relPath cfg uploadID now req meta st h,
    fun hp => by rw [substPath, if_pos hp],
    fun hf => by rw [substFilename, if_pos hf]⟩

/-- C9 witness: the amended theorem's empty-path branch at a request whose
two name fields are whitespace. -/
theorem C9_init_substitution_witness :
    handleInit cfgT "u" 0 { filename := "", path := " ", totalSize := 1, chunkSize := 1 } =
      .error (.badRequest "invalid path") :=
  (C9_init_substitution cfgT "u" 0
    { filename := "", path := " ", totalSize := 1, chunkSize := 1 }
    (by decide) (by decide) (by decide)).2.1 (by decide)

/-! ## Claim C10 -/

theorem resolveMaxDepth_eq (q : String) :
    resolveMaxDepth q =
      match parseGoInt64 (goTrimSpace q) with
      | some n => if n ≥ 0 ∧ n ≤ 20 then n else 4
      | none => 4 := by
  simp only [resolveMaxDepth]
  by_cases hv : goTrimSpace q = ""
  · rw [if_neg (by simp [hv])]
    have hp : parseGoInt64 (goTrimSpace q) = none := by rw [hv]; rfl
    rw [hp]
  · rw [if_pos hv]

theorem resolveMaxEntries_eq (q : String) :
    resolveMaxEntries q =
      match parseGoInt64 (goTrimSpace q) with
      | some n => if n ≥ 1 ∧ n ≤ 200000 then n else 5000
      | none => 5000 := by
  simp only [resolveMaxEntries]
  by_cases hv : goTrimSpace q = ""
  · rw [if_neg (by simp [hv])]
    have hp : parseGoInt64 (goTrimSpace q) = none := by rw [hv]; rfl
    rw [hp]
  · rw [if_pos hv]

theorem buildNode_err_root (fs : String → Option (List (String × Bool)))
    (stateDir rootAbs cwd : String) (maxEntries : Int) (fuel : Nat)
    (absDir relDir : String) (entries : Int)
    (h : (buildNode fs stateDir rootAbs cwd maxEntries fuel absDir relDir entries).2.2 = true) :
    fs absDir = none := by
  cases fuel with
  | zero => simp [buildNode] at h
  | succ f =>
    cases hfs : fs absDir with
    | none => rfl
    | some kids =>
      rw [buildNode, hfs] at h
      simp at h

/-- C10: a `max_depth` query value that fails to parse as an integer or
lies outside `[0, 20]` is silently replaced by the default `4`, and a
`max_entries` value that fails to parse or lies outside `[1, 200000]` is
silently replaced by the default `5000`; in-range values are used as
given, and the tree endpoint can only fail because the storage root itself
is unreadable — never on account of the limit parameters. -/
theorem C10_tree_limits (vd ve : String) :
    (parseGoInt64 (goTrimSpace vd) = none → resolveMaxDepth vd = 4) ∧
    (∀ n, parseGoInt64 (goTrimSpace vd) = some n → n < 0 ∨ n > 20 →
      resolveMaxDepth vd = 4) ∧
    (∀ n, parseGoInt64 (goTrimSpace vd) = some n → 0 ≤ n → n ≤ 20 →
      resolveMaxDepth vd = n) ∧
    (parseGoInt64 (goTrimSpace ve) = none → resolveMaxEntries ve = 5000) ∧
    (∀ n, parseGoInt64 (goTrimSpace ve) = some n → n < 1 ∨ n > 200000 →
      resolveMaxEntries ve = 5000) ∧
    (∀ n, parseGoInt64 (goTrimSpace ve) = some n → 1 ≤ n → n ≤ 200000 →
      resolveMaxEntries ve = n) ∧
    (∀ fs stateDir rootAbs cwd e,
      handleStorageTree fs stateDir rootAbs cwd vd ve = .error e →
      e = .internalErr ∧ fs rootAbs = none) := by
  refine ⟨?_, ?_, ?_, ?_, ?_, ?_, ?_⟩
  · intro hp; rw [resolveMaxDepth_eq, hp]
  · intro n hp hr
    rw [resolveMaxDepth_eq, hp]
    exact if_neg (by omega)
  · intro n hp h0 h20
    rw [resolveMaxDepth_eq, hp]
    exact if_pos (by omega)
  · intro hp; rw [resolveMaxEntries_eq, hp]
  · intro n hp hr
    rw [resolveMaxEntries_eq, hp]
    exact if_neg (by omega)
  · intro n hp h0 h20
    rw [resolveMaxEntries_eq, hp]
    exact if_pos (by omega)
  · intro fs stateDir rootAbs cwd e h
    rw [handleStorageTree] at h
    split at h
    · rename_i node entries herr
      have he : e = ApiErr.internalErr := by
        injection h with h2
        exact h2.symm
      refine ⟨he, ?_⟩
      exact buildNode_err_root fs stateDir rootAbs cwd (resolveMaxEntries ve)
        (resolveMaxDepth vd).toNat rootAbs "" 0 (by rw [herr])
    · simp at h

/-- C10 witness: a negative `max_depth` and an oversized `max_entries` are
replaced by their defaults. -/
theorem C10_tree_limits_witness :
    resolveMaxDepth "-1" = 4 ∧ resolveMaxEntries "200001" = 5000 :=
  ⟨(C10_tree_limits "-1" "200001").2.1 (-1) (by decide) (by decide),
   (C10_tree_limits "-1" "200001").2.2.2.2.1 200001 (by decide) (by decide)⟩

/-! ## Claim C8: auxiliary lemmas -/

theorem joinSlash_ne_nil_of_good (out : List String) (hne : out ≠ [])
    (hgood : ∀ c ∈ out, ¬ c = "") : joinSlash out ≠ [] := by
  cases out with
  | nil => exact absurd rfl hne
  | cons c rest =>
    cases rest with
    | nil =>
      rw [joinSlash]
      intro he
      exact hgood c (by simp) (String.ext he)
    | cons c2 rest2 =>
      have hj : joinSlash (c :: c2 :: rest2) = c.data ++ '/' :: joinSlash (c2 :: rest2) := rfl
      rw [hj]
      simp

theorem goClean_ne_empty (p : String) : ¬ goClean p = "" := by
  by_cases hp : p = ""
  · rw [hp]; decide
  · by_cases hr : p.data.head? = some '/'
    · rw [goClean_eq_rooted p hp hr]
      intro he
      exact absurd (congrArg String.data he) (by simp)
    · rw [goClean_eq_rel p hp hr]
      by_cases hout : cleanComps false (splitSlash p.data) = []
      · rw [if_pos hout]; decide
      · rw [if_neg hout]
        intro he
        refine joinSlash_ne_nil_of_good _ hout ?_ (congrArg String.data he)
        intro c hc hcne
        have hc' : c ∈ (splitSlash p.data).foldl (cleanStep false) [] := by
          simpa [cleanComps] using hc
        rcases mem_foldl_cleanStep false _ c [] hc' with h | h | h
        · simp at h
        · exact h.2 (.inl hcne)
        · rw [hcne] at h; simp at h

theorem goJoin_ne_empty (a b : String) (ha : ¬ a = "") (hb : ¬ b = "") :
    ¬ goJoin a b = "" := by
  rw [goJoin, if_neg (fun hand => ha hand.1), if_neg ha, if_neg hb]
  exact goClean_ne_empty _

theorem takeWhile_ne_slash (xs : List Char) (h : ∀ x ∈ xs, x ≠ '/') (ys : List Char) :
    (xs ++ '/' :: ys).takeWhile (· ≠ '/') = xs := by
  induction xs with
  | nil => simp [List.takeWhile]
  | cons x xs ih =>
    rw [List.cons_append, List.takeWhile_cons_of_pos (by simpa using h x (by simp))]
    rw [ih (fun y hy => h y (by simp [hy]))]

theorem joinSlash_append_last (cs : List String) (n : String) (h1 : cs ≠ []) :
    joinSlash (cs ++ [n]) = joinSlash cs ++ '/' :: n.data := by
  induction cs with
  | nil => exact absurd rfl h1
  | cons c rest ih =>
    cases rest with
    | nil => rfl
    | cons c2 rest2 =>
      have hj1 : joinSlash ((c :: c2 :: rest2) ++ [n]) =
          c.data ++ '/' :: joinSlash ((c2 :: rest2) ++ [n]) := rfl
      have hj2 : joinSlash (c :: c2 :: rest2) = c.data ++ '/' :: joinSlash (c2 :: rest2) := rfl
      rw [hj1, hj2, ih (List.cons_ne_nil c2 rest2)]
      simp

theorem goBase_mkAbs_last (cs : List String) (n : String) (hn : goodComp n) :
    goBase (mkAbs (cs ++ [n])) = n := by
  obtain ⟨hn1, _, _, hn4⟩ := hn
  have hnd : n.data ≠ [] := fun he => hn1 (String.ext he)
  have hrev : ∃ t, (mkAbs (cs ++ [n])).data.reverse = n.data.reverse ++ '/' :: t := by
    cases cs with
    | nil =>
      refine ⟨[], ?_⟩
      show ('/' :: joinSlash [n]).reverse = n.data.reverse ++ ['/']
      rw [joinSlash]
      simp
    | cons c rest =>
      refine ⟨(joinSlash (c :: rest)).reverse ++ ['/'], ?_⟩
      show ('/' :: joinSlash ((c :: rest) ++ [n])).reverse = _
      rw [joinSlash_append_last (c :: rest) n (List.cons_ne_nil c rest)]
      simp
  obtain ⟨t, ht⟩ := hrev
  have hnomem : ∀ x ∈ n.data.reverse, x ≠ '/' := by
    intro x hx he
    exact hn4 (he ▸ List.mem_reverse.1 hx)
  rw [goBase, if_neg (mkAbs_ne_empty _)]
  rw [ht]
  have hdrop : (n.data.reverse ++ '/' :: t).dropWhile (· = '/') = n.data.reverse ++ '/' :: t := by
    cases hnd2 : n.data.reverse with
    | nil => exact absurd (by simpa using hnd2) (by simpa using hnd)
    | cons x xs =>
      have hx : x ≠ '/' := hnomem x (by rw [hnd2]; simp)
      rw [List.cons_append, List.dropWhile_cons_of_neg (by simpa using hx)]
  rw [hdrop, if_neg (by simp [hnd])]
  rw [takeWhile_ne_slash n.data.reverse hnomem t]
  simp

theorem goJoin_mkAbs_single (X : List String) (nm : String) (h1 : X ≠ [])
    (h2 : ∀ c ∈ X, goodComp c) (hn : goodComp nm) :
    goJoin (mkAbs X) nm = mkAbs (X ++ [nm]) :=
  goJoin_mkAbs_rel X [nm] h1 h2 (by simpa using hn) (by simp)

theorem goAbs_goJoin_single (cwd : String) (X : List String) (nm : String) (h1 : X ≠ [])
    (h2 : ∀ c ∈ X, goodComp c) (hn : goodComp nm) :
    goAbs cwd (goJoin (mkAbs X) nm) = mkAbs (X ++ [nm]) := by
  rw [goJoin_mkAbs_single X nm h1 h2 hn]
  exact goAbs_mkAbs cwd (X ++ [nm]) (by
    intro c hc
    rcases List.mem_append.1 hc with h | h
    · exact h2 c h
    · simp at h; rw [h]; exact hn)

theorem DirNode.Good_mk (cwd rootAbs stateDir absDir name relPath : String)
    (children : List DirNode) :
    DirNode.Good cwd rootAbs stateDir absDir (.mk name relPath children) ↔
      (name ≠ stateDir ∧ isSubpath absDir rootAbs = true ∧
        ∀ c ∈ children,
          DirNode.Good cwd rootAbs stateDir (goAbs cwd (goJoin absDir c.nodeName)) c) := by
  rw [DirNode.Good]

theorem buildNode_name (fs : String → Option (List (String × Bool)))
    (stateDir rootAbs cwd : String) (maxEntries : Int) (fuel : Nat)
    (absDir relDir : String) (entries : Int) :
    (buildNode fs stateDir rootAbs cwd maxEntries fuel absDir relDir entries).1.nodeName =
      nodeNameOf rootAbs absDir relDir := by
  cases fuel with
  | zero => rfl
  | succ f =>
    cases hfs : fs absDir with
    | none => simp [buildNode, hfs, DirNode.nodeName]
    | some kids => simp [buildNode, hfs, DirNode.nodeName]

theorem scanKids_good (stateDir rootAbs cwd : String) (maxEntries : Int)
    (rec : String → String → Int → DirNode × Int × Bool)
    (absDir relDir : String)
    (hrec : ∀ nm entries2, goodComp nm → nm ≠ stateDir →
      isSubpath (goAbs cwd (goJoin absDir nm)) rootAbs = true →
      DirNode.Good cwd rootAbs stateDir (goAbs cwd (goJoin absDir nm))
        (rec (goAbs cwd (goJoin absDir nm))
          (if relDir = "" then nm else goJoin relDir nm) entries2).1 ∧
      (rec (goAbs cwd (goJoin absDir nm))
          (if relDir = "" then nm else goJoin relDir nm) entries2).1.nodeName = nm) :
    ∀ ks, (∀ e ∈ ks, goodComp e.1) → ∀ entries acc,
      (∀ c ∈ acc,
        DirNode.Good cwd rootAbs stateDir (goAbs cwd (goJoin absDir c.nodeName)) c) →
      ∀ c ∈ (scanKids stateDir rootAbs cwd maxEntries rec absDir relDir ks entries acc).1,
        DirNode.Good cwd rootAbs stateDir (goAbs cwd (goJoin absDir c.nodeName)) c := by
  intro ks
  induction ks with
  | nil =>
    intro _ entries acc hacc c hc
    rw [scanKids] at hc
    exact hacc c hc
  | cons de ks ihk =>
    intro hks entries acc hacc c hc
    have hks' : ∀ e ∈ ks, goodComp e.1 := fun e he => hks e (List.mem_cons_of_mem de he)
    simp only [scanKids] at hc
    split at hc
    · exact hacc c hc
    · split at hc
      · exact ihk hks' entries acc hacc c hc
      · split at hc
        · exact ihk hks' entries acc hacc c hc
        · split at hc
          · exact ihk hks' entries acc hacc c hc
          · split at hc
            · exact ihk hks' (entries + 1) acc hacc c hc
            · rename_i hdir hsd1 hsd2 hsubn
              split at hc
              · exact ihk hks' _ acc hacc c hc
              · rename_i cn e3 hrec_eq
                refine ihk hks' _ (acc ++ [cn]) ?_ c hc
                intro c' hc'
                rcases List.mem_append.1 hc' with h | h
                · exact hacc c' h
                · simp only [List.mem_singleton] at h
                  have hsubT : isSubpath (goAbs cwd (goJoin absDir de.1)) rootAbs = true := by
                    by_contra hcon
                    exact hsubn (by simpa using hcon)
                  obtain ⟨hgood, hname⟩ :=
                    hrec de.1 (entries + 1) (hks de (by simp)) hsd2 hsubT
                  have hcn : cn = (rec (goAbs cwd (goJoin absDir de.1))
                      (if relDir = "" then de.1 else goJoin relDir de.1) (entries + 1)).1 := by
                    rw [hrec_eq]
                  rw [h, hcn, hname]
                  exact hgood

theorem buildNode_good (fs : String → Option (List (String × Bool)))
    (stateDir cwd : String) (rc : List String) (maxEntries : Int)
    (h1 : rc ≠ []) (h2 : ∀ c ∈ rc, goodComp c)
    (hroot : goBase (mkAbs rc) ≠ stateDir)
    (hfs : ∀ d es, fs d = some es → ∀ e ∈ es, goodComp e.1) :
    ∀ (fuel : Nat) (cs : List String) (absDir relDir : String) (entries : Int),
      absDir = mkAbs (rc ++ cs) → (∀ c ∈ cs, goodComp c) →
      nodeNameOf (mkAbs rc) absDir relDir ≠ stateDir →
      isSubpath absDir (mkAbs rc) = true →
      DirNode.Good cwd (mkAbs rc) stateDir absDir
        (buildNode fs stateDir (mkAbs rc) cwd maxEntries fuel absDir relDir entries).1 := by
  intro fuel
  induction fuel with
  | zero =>
    intro cs absDir relDir entries habs hcs hname hsub
    rw [show (buildNode fs stateDir (mkAbs rc) cwd maxEntries 0 absDir relDir entries).1 =
      DirNode.mk (nodeNameOf (mkAbs rc) absDir relDir) relDir [] from rfl]
    rw [DirNode.Good_mk]
    exact ⟨hname, hsub, by simp⟩
  | succ f ih =>
    intro cs absDir relDir entries habs hcs hname hsub
    cases hfs0 : fs absDir with
    | none =>
      have hbn : (buildNode fs stateDir (mkAbs rc) cwd maxEntries (f + 1) absDir relDir entries).1 =
          DirNode.mk (nodeNameOf (mkAbs rc) absDir relDir) relDir [] := by
        simp [buildNode, hfs0]
      rw [hbn, DirNode.Good_mk]
      exact ⟨hname, hsub, by simp⟩
    | some kids =>
      have hbn : (buildNode fs stateDir (mkAbs rc) cwd maxEntries (f + 1) absDir relDir entries).1 =
          DirNode.mk (nodeNameOf (mkAbs rc) absDir relDir) relDir
            (scanKids stateDir (mkAbs rc) cwd maxEntries
              (fun a b c => buildNode fs stateDir (mkAbs rc) cwd maxEntries f a b c)
              absDir relDir kids entries []).1 := by
        simp [buildNode, hfs0]
      rw [hbn, DirNode.Good_mk]
      refine ⟨hname, hsub, ?_⟩
      refine scanKids_good stateDir (mkAbs rc) cwd maxEntries
        (fun a b c => buildNode fs stateDir (mkAbs rc) cwd maxEntries f a b c)
        absDir relDir ?_ kids (hfs absDir kids hfs0) entries [] (by simp)
      intro nm entries2 hnm hnmsd hsubc
      dsimp only
      have hchild : goAbs cwd (goJoin absDir nm) = mkAbs ((rc ++ cs) ++ [nm]) := by
        rw [habs]
        refine goAbs_goJoin_single cwd (rc ++ cs) nm (by simp [h1]) ?_ hnm
        intro c hc
        rcases List.mem_append.1 hc with hx | hx
        · exact h2 c hx
        · exact hcs c hx
      have hrel_ne : (if relDir = "" then nm else goJoin relDir nm) ≠ "" := by
        split
        · exact hnm.1
        · exact goJoin_ne_empty relDir nm (by assumption) hnm.1
      constructor
      · refine ih (cs ++ [nm]) (goAbs cwd (goJoin absDir nm))
          (if relDir = "" then nm else goJoin relDir nm) entries2 ?_ ?_ ?_ hsubc
        · rw [hchild, List.append_assoc]
        · intro c hc
          rcases List.mem_append.1 hc with hx | hx
          · exact hcs c hx
          · simp at hx
            rw [hx]
            exact hnm
        · rw [nodeNameOf, if_neg hrel_ne, hchild,
            goBase_mkAbs_last (rc ++ cs) nm hnm]
          exact hnmsd
      · rw [buildNode_name, nodeNameOf, if_neg hrel_ne, hchild,
          goBase_mkAbs_last (rc ++ cs) nm hnm]

/-- Claim C8: for any storage root made of well-formed segments and any
directory structure whose entry names are well-formed, every node of the
tree returned by the directory scan (`handleStorageTree`) is good: its
re-resolved absolute path passes the `isSubpath` re-check against the
storage root at every level (children failing the re-check were silently
skipped during the walk, not turned into errors), and no node named after
the state-storage subdirectory appears anywhere in the returned tree. -/
theorem C8_tree_containment (fs : String → Option (List (String × Bool)))
    (stateDir cwd qDepth qEntries : String) (rc : List String)
    (h1 : rc ≠ []) (h2 : ∀ c ∈ rc, goodComp c)
    (hroot : goBase (mkAbs rc) ≠ stateDir)
    (hfs : ∀ d es, fs d = some es → ∀ e ∈ es, goodComp e.1)
    (node : DirNode)
    (hok : handleStorageTree fs stateDir (mkAbs rc) cwd qDepth qEntries = .ok node) :
    DirNode.Good cwd (mkAbs rc) stateDir (mkAbs rc) node := by
  have hb := buildNode_good fs stateDir cwd rc (resolveMaxEntries qEntries) h1 h2 hroot hfs
    (resolveMaxDepth qDepth).toNat [] (mkAbs rc) "" 0 (by rw [List.append_nil])
    (by simp) (by rw [nodeNameOf, if_pos rfl]; exact hroot)
    (by simpa using isSubpath_mkAbs_append rc [] h1 h2 (by simp))
  simp only [handleStorageTree] at hok
  rcases hbe : buildNode fs stateDir (mkAbs rc) cwd (resolveMaxEntries qEntries)
      (resolveMaxDepth qDepth).toNat (mkAbs rc) "" 0 with ⟨n, e, b⟩
  rw [hbe] at hok hb
  cases b with
  | true => exact absurd hok (by simp)
  | false =>
    simp only [Except.ok.injEq] at hok
    rw [← hok]
    exact hb

theorem C8_tree_containment_witness :
    goBase (mkAbs ["up"]) ≠ ".st" ∧
    DirNode.Good "/" (mkAbs ["up"]) ".st" (mkAbs ["up"])
      (.mk "up" "" [.mk "docs" "docs" [.mk "img" "docs/img" []]]) := by
  refine ⟨by decide, ?_⟩
  refine C8_tree_containment fsT ".st" "/" "" "" ["up"] (by decide) (by decide) (by decide)
    ?_ _ ?_
  · intro d es h e he
    simp only [fsT] at h
    split at h
    · injection h with h
      subst h
      fin_cases he <;> decide
    · split at h
      · injection h with h
        subst h
        fin_cases he <;> decide
      · split at h
        · injection h with h
          subst h
          simp at he
        · exact absurd h (by simp)
  · rfl
